import Mathlib

/-!
Verification of the vector-memory workspace indexer.

A shallow embedding of the `openclaw-skill-vector-memory` repository
(`lib.js`, `index.js`, `ingest-sessions.js`, `ingest.js`, `search.js`).

JavaScript strings are modelled as `List Char`; JavaScript numbers that the
claims depend on are modelled exactly (`Nat` for lengths, counts and
timestamps, `Rat` for vector components).  File-system reads and the remote
embedding call are passed in as explicit inputs or oracles; each CLI run is a
pure function from the loaded state to the state left on disk, together with
a record of what the run reported and which files it wrote.
-/

namespace VecMem

/-- JavaScript string, modelled as a list of characters. -/
abbrev Str := List Char

/-- Tail-recursive length counter (see `strLen`). -/
def strLenGo (n : Nat) : Str → Nat
  | [] => n
  | _ :: rest => strLenGo (n + 1) rest

/-- JavaScript `s.length`, modelled tail-recursively so that concrete
multi-thousand-character inputs evaluate inside proofs. -/
def strLen (s : Str) : Nat := strLenGo 0 s

/-- JavaScript `s.slice(0, n)`. -/
def jsSlice (s : Str) (n : Nat) : Str := s.take n

/-- The newline character. -/
def nlChar : Char := '\n'

/-- Characters treated as whitespace by JavaScript `trim` and the regex
class used in `lib.js` (ASCII whitespace and no-break space; the model
covers the characters that can occur in the claims' inputs). -/
def isWsChar (c : Char) : Bool :=
  c = ' ' || c = '\t' || c = '\n' || c = '\r' ||
  c = Char.ofNat 11 || c = Char.ofNat 12 || c = Char.ofNat 0xA0

/-- `String.prototype.trim`: strip whitespace from both ends. -/
def jsTrim (s : Str) : Str :=
  ((s.dropWhile isWsChar).reverse.dropWhile isWsChar).reverse

/-- Helper for `splitNl`: accumulate the current segment (reversed). -/
def splitNlGo (acc : Str) : Str → List Str
  | [] => [acc.reverse]
  | c :: rest =>
    if c = nlChar then acc.reverse :: splitNlGo [] rest
    else splitNlGo (c :: acc) rest

/-- `text.split('\n')` from `chunkMarkdown` in `lib.js`: split on every
newline, keeping empty segments. -/
def splitNl (s : Str) : List Str := splitNlGo [] s

/-- JavaScript `parts.join(sep)`. -/
def joinSep (sep : Str) : List Str → Str
  | [] => []
  | [x] => x
  | x :: rest => x ++ sep ++ joinSep sep rest

/-- `lines.join('\n')` from `flush` in `lib.js`. -/
def joinNl (ls : List Str) : Str := joinSep [nlChar] ls

/-- Drop a run of newlines (the tail of a greedy `\n\n+` separator
match). -/
def dropNls (s : Str) : Str := s.dropWhile (· = nlChar)

/-- Scanner for `content.split(/\n\n+/)` in `lib.js`: accumulate the current
segment (in reverse); a run of two or more newlines ends the segment and is
consumed whole (the regex is greedy). -/
def splitParasGo (acc : Str) : Str → List Str
  | [] => [acc.reverse]
  | [c] => [(c :: acc).reverse]
  | c :: c2 :: rest2 =>
    if c = nlChar ∧ c2 = nlChar then
      acc.reverse :: splitParasGo [] (dropNls rest2)
    else if c = nlChar then splitParasGo (c2 :: c :: acc) rest2
    else splitParasGo (c :: acc) (c2 :: rest2)
termination_by s => s.length
decreasing_by
  · have h : (dropNls rest2).length ≤ rest2.length :=
      (List.dropWhile_sublist _).length_le
    simp only [List.length_cons]
    omega
  · simp only [List.length_cons]
    omega
  · simp only [List.length_cons]
    omega

/-- `content.split(/\n\n+/)` from `flush` in `lib.js`: paragraphs are the
segments between maximal runs of two or more newlines. -/
def splitParas (s : Str) : List Str := splitParasGo [] s

/-- `/^#{1,3}\s/.test(line)` from `chunkMarkdown` in `lib.js`: one to three
leading `#` characters followed by a whitespace character. -/
def isHeadingLine (line : Str) : Bool :=
  match line with
  | '#' :: '#' :: '#' :: c :: _ => isWsChar c
  | '#' :: '#' :: c :: _ => c ≠ '#' && isWsChar c
  | '#' :: c :: _ => c ≠ '#' && isWsChar c
  | _ => false

/-- `line.replace(/^#+\s*/, '')` from `chunkMarkdown` in `lib.js`: strip the
leading run of `#` characters and any following whitespace. -/
def stripHeadingMarks (line : Str) : Str :=
  (line.dropWhile (· = '#')).dropWhile isWsChar

/-- A pre-embedding chunk descriptor, as produced by `chunkMarkdown`. -/
structure Chunk where
  text : Str
  file : Str
  startLine : Nat
  endLine : Nat
  heading : Str
deriving DecidableEq, Repr

/-- The accumulating section of `chunkMarkdown` (`current` in `lib.js`). -/
structure Sect where
  lines : List Str
  startLine : Nat
  heading : Str
deriving DecidableEq, Repr

/-- `maxChars` from `flush` in `lib.js`. -/
def maxChars : Nat := 3000

/-- The paragraph-packing loop of `flush` in `lib.js`: walks the paragraph
list with the accumulator `buf`, flushing `buf` as a chunk when adding the
next paragraph would overflow `maxChars` and `buf` is longer than 100
characters.  Returns the chunks flushed inside the loop together with the
final `buf` and its start line. -/
def packLoop (fp heading : Str) (curStart : Nat) :
    List Str → Str → Nat → Nat → List Chunk × Str × Nat
  | [], buf, bufStart, _ => ([], buf, bufStart)
  | para :: rest, buf, bufStart, lineOffset =>
    if strLen buf + strLen para > maxChars ∧ strLen buf > 100 then
      let c : Chunk :=
        ⟨jsTrim buf, fp, bufStart, bufStart + (splitNl buf).length - 1, heading⟩
      let buf' := para
      let bufStart' := curStart + lineOffset
      let lineOffset' := lineOffset + (splitNl para).length + 1
      let r := packLoop fp heading curStart rest buf' bufStart' lineOffset'
      (c :: r.1, r.2)
    else
      let buf' := if buf = [] then para else buf ++ [nlChar, nlChar] ++ para
      let lineOffset' := lineOffset + (splitNl para).length + 1
      packLoop fp heading curStart rest buf' bufStart lineOffset'

/-- `flush` from `chunkMarkdown` in `lib.js`: emit the chunks of one
accumulated section. -/
def flushSect (cur : Sect) (fp : Str) : List Chunk :=
  let content := jsTrim (joinNl cur.lines)
  if strLen content < 20 then []
  else if strLen content > maxChars then
    let paras := splitParas content
    let r := packLoop fp cur.heading cur.startLine paras [] cur.startLine 0
    if 20 < strLen (jsTrim r.2.1) then
      r.1 ++ [⟨jsTrim r.2.1, fp, r.2.2,
               cur.startLine + cur.lines.length - 1, cur.heading⟩]
    else r.1
  else
    [⟨content, fp, cur.startLine,
      cur.startLine + cur.lines.length - 1, cur.heading⟩]

/-- The line loop of `chunkMarkdown` in `lib.js`; `i` is the 0-based index
of the next line. -/
def chunkLoop (fp : Str) (cur : Sect) (i : Nat) : List Str → List Chunk
  | [] => flushSect cur fp
  | line :: rest =>
    if isHeadingLine line ∧ cur.lines ≠ [] then
      flushSect cur fp ++
        chunkLoop fp ⟨[line], i + 1, stripHeadingMarks line⟩ (i + 1) rest
    else
      chunkLoop fp ⟨cur.lines ++ [line], cur.startLine, cur.heading⟩ (i + 1) rest

/-- `chunkMarkdown(text, filePath)` from `lib.js`. -/
def chunkMarkdown (text fp : Str) : List Chunk :=
  chunkLoop fp ⟨[], 1, []⟩ 0 (splitNl text)

/-- The section decomposition implicitly computed by `chunkMarkdown`
(used to state which paragraphs a document contains). -/
def sectionsGo (cur : Sect) (i : Nat) : List Str → List Sect
  | [] => [cur]
  | line :: rest =>
    if isHeadingLine line ∧ cur.lines ≠ [] then
      cur :: sectionsGo ⟨[line], i + 1, stripHeadingMarks line⟩ (i + 1) rest
    else
      sectionsGo ⟨cur.lines ++ [line], cur.startLine, cur.heading⟩ (i + 1) rest

/-- All sections of a document, in order. -/
def docSections (text : Str) : List Sect :=
  sectionsGo ⟨[], 1, []⟩ 0 (splitNl text)

/-- The paragraphs of one section, exactly as `flush` computes them. -/
def sectParas (s : Sect) : List Str := splitParas (jsTrim (joinNl s.lines))

/-- All paragraphs of a document, over all sections. -/
def docParas (text : Str) : List Str := (docSections text).flatMap sectParas

/-- The length of the longest paragraph of a document. -/
def maxParaLen (text : Str) : Nat :=
  ((docParas text).map strLen).foldr max 0

/-! ## Vector store and tracker state -/

/-- An embedding vector (components are modelled as exact rationals). -/
abbrev Vec := List Rat

/-- A persisted chunk record (an element of `data/vectors.json`).
`meta` is the optional free-form attachment session ingestion adds. -/
structure Doc where
  id : Str
  file : Str
  startLine : Nat
  endLine : Nat
  heading : Str
  text : Str
  vector : Vec
  indexedAt : Nat
  meta : Option (Str × Str) := none
deriving DecidableEq, Repr

/-- The file-modification tracker (`data/file-meta.json`): an association
list from relative path to mtime, modelling the JSON object. -/
abbrev FileMeta := List (Str × Nat)

/-- Object property lookup on the tracker (first entry with the key, as a
JS object read behaves on this association-list model). -/
def metaLookup (m : FileMeta) (k : Str) : Option Nat :=
  match m with
  | [] => none
  | kv :: rest => if kv.1 == k then some kv.2 else metaLookup rest k

/-- Object property assignment `m[k] = v` (overwrites every entry with the
key, appends when absent, as a JS object would behave under lookup). -/
def metaSet (m : FileMeta) (k : Str) (v : Nat) : FileMeta :=
  if m.any (fun kv => kv.1 == k) then
    m.map (fun kv => if kv.1 == k then (k, v) else kv)
  else m ++ [(k, v)]

/-- The remote embedding capability: given the submitted texts, either every
batch succeeds and a vector list comes back, or some batch throws
(`none`). -/
abbrev EmbedFn := List Str → Option (List Vec)

/-! ## Workspace Indexer (`index.js`) -/

/-- A crawled file: relative path, `mtimeMs`, and its content. -/
structure CrawlFile where
  relPath : Str
  mtime : Nat
  content : Str
deriving DecidableEq, Repr

/-- The changed-file test from `index.js` (`main`, lines 42-52): a file is
reindexed unless the run is incremental, the file is tracked, and the
tracked mtime is at least the current one. -/
def fileChanged (full : Bool) (meta : FileMeta) (f : CrawlFile) : Bool :=
  full ||
    match metaLookup meta f.relPath with
    | none => true
    | some m => decide (m < f.mtime)

/-- How a run of `index.js` ended. -/
inductive IdxStatus
  | noChange
  | noContent
  | embedFail
  | ok
deriving DecidableEq, Repr

/-- Observable outcome of one `index.js` run: the store and tracker left on
disk, whether each file was rewritten, which texts were submitted to the
embedding client, and the reported counts. -/
structure IdxOut where
  index : List Doc
  meta : FileMeta
  status : IdxStatus
  wroteIndex : Bool
  wroteMeta : Bool
  submitted : List Str
  filesIndexed : Nat
deriving DecidableEq, Repr

/-- The body of `main` in `index.js` after the cache load (`fileMeta` and
`existingDocs` are what was loaded, i.e. empty in `--full` mode;
`docs0`/`meta0` remain the on-disk values). -/
def indexRunGo (full : Bool) (files : List CrawlFile) (fileMeta : FileMeta)
    (existingDocs : List Doc) (meta0 : FileMeta) (docs0 : List Doc)
    (embed : EmbedFn) (now : Nat) : IdxOut :=
  let toIndex := files.filter (fileChanged full fileMeta)
  let currentFiles := files.map (·.relPath)
  if toIndex = [] then
    { index := docs0, meta := meta0, status := .noChange,
      wroteIndex := false, wroteMeta := false, submitted := [],
      filesIndexed := 0 }
  else
    let reindexPaths := toIndex.map (·.relPath)
    let keptDocs := existingDocs.filter
      (fun d => !(reindexPaths.contains d.file) && currentFiles.contains d.file)
    let allChunks := toIndex.flatMap (fun f => chunkMarkdown f.content f.relPath)
    if allChunks = [] then
      { index := keptDocs, meta := meta0, status := .noContent,
        wroteIndex := true, wroteMeta := false, submitted := [],
        filesIndexed := 0 }
    else
      let texts := allChunks.map (fun c => jsSlice c.text 8000)
      match embed texts with
      | none =>
        { index := docs0, meta := meta0, status := .embedFail,
          wroteIndex := false, wroteMeta := false, submitted := texts,
          filesIndexed := 0 }
      | some embeddings =>
        let newDocs := allChunks.enum.map (fun ci =>
          { id := ci.2.file ++ [':'] ++ (Nat.toDigits 10 ci.2.startLine).map id,
            file := ci.2.file, startLine := ci.2.startLine,
            endLine := ci.2.endLine, heading := ci.2.heading,
            text := ci.2.text, vector := embeddings.getD ci.1 [],
            indexedAt := now : Doc })
        let finalDocs := keptDocs ++ newDocs
        let prunedMeta := fileMeta.filter (fun kv => currentFiles.contains kv.1)
        let newMeta := toIndex.foldl (fun m f => metaSet m f.relPath f.mtime) prunedMeta
        { index := finalDocs, meta := newMeta, status := .ok,
          wroteIndex := true, wroteMeta := true, submitted := texts,
          filesIndexed := toIndex.length }

/-- One run of `main` in `index.js`, as a pure function.  `docs0` and
`meta0` are the store and tracker on disk before the run; `--full` clears
the loaded cache first; `embed` is the embedding capability; `now` is
`Date.now()`. -/
def indexRun (full : Bool) (files : List CrawlFile) (meta0 : FileMeta)
    (docs0 : List Doc) (embed : EmbedFn) (now : Nat) : IdxOut :=
  indexRunGo full files (if full then [] else meta0)
    (if full then [] else docs0) meta0 docs0 embed now

/-! ## Session Ingester (`ingest-sessions.js`) -/

/-- One content part of an array-shaped message body
(`{ type, text }` in the OpenClaw JSONL). -/
structure CPart where
  ctype : Str
  ctext : Option Str
deriving DecidableEq, Repr

/-- A message body: a plain string, an array of typed parts, or anything
else (which `extractText` maps to the empty string). -/
inductive JsContent
  | str (s : Str)
  | arr (parts : List CPart)
  | other
deriving DecidableEq, Repr

/-- A normalized session message (`{ role, content }`). -/
structure Msg where
  role : Str
  content : JsContent
deriving DecidableEq, Repr

/-- One line of a session JSONL file, after line-level decoding: `some m`
when the line parses to a message under either accepted shape, `none` for a
blank, malformed, or non-message line (skipped by `parseJSONL`). -/
abbrev LogLine := Option Msg

/-- `parseJSONL` from `ingest-sessions.js`: the messages of the decodable
lines, in order. -/
def parseJSONL (lines : List LogLine) : List Msg := lines.filterMap id

/-- `extractText` from `ingest-sessions.js`. -/
def extractText : JsContent → Str
  | .str s => s
  | .arr parts =>
    joinNl ((parts.filter (fun p => p.ctype == ['t', 'e', 'x', 't'])).map
      (fun p => p.ctext.getD []))
  | .other => []

/-- The sentinel `"HEARTBEAT_OK"`. -/
def heartbeatOk : Str := ['H','E','A','R','T','B','E','A','T','_','O','K']

/-- The sentinel `"Read HEARTBEAT.md if it exists"`. -/
def readHeartbeat : Str :=
  ['R','e','a','d',' ','H','E','A','R','T','B','E','A','T','.','m','d',
   ' ','i','f',' ','i','t',' ','e','x','i','s','t','s']

/-- The sentinel `"NO_REPLY"`. -/
def noReply : Str := ['N','O','_','R','E','P','L','Y']

/-- Does `s` start with `t`? -/
def strStartsWith : Str → Str → Bool
  | _, [] => true
  | [], _ :: _ => false
  | c :: s, d :: t => c == d && strStartsWith s t

/-- JavaScript `s.includes(t)`. -/
def jsIncludes : Str → Str → Bool
  | [], t => strStartsWith [] t
  | c :: rest, t => strStartsWith (c :: rest) t || jsIncludes rest t

/-- `shouldSkipMessage` from `ingest-sessions.js`. -/
def shouldSkipMessage (m : Msg) : Bool :=
  if m.role == ['t','o','o','l','R','e','s','u','l','t'] ||
     m.role == ['t','o','o','l'] ||
     m.role == ['s','y','s','t','e','m'] then true
  else
    let content := extractText m.content
    if content = [] || strLen content < 10 then true
    else if jsIncludes content heartbeatOk then true
    else if jsIncludes content readHeartbeat then true
    else if jsTrim content = noReply then true
    else false

/-- `formatMsg` from `ingest-sessions.js`. -/
def formatMsg (m : Msg) (label : Str) : Str :=
  let role := if m.role == ['u','s','e','r'] then
    ['H','u','m','a','n'] else ['A','s','s','i','s','t','a','n','t']
  let content := extractText m.content
  let truncated := if strLen content > 2000 then
    jsSlice content 2000 ++ ['.','.','.'] else content
  ['['] ++ label ++ [']',' '] ++ role ++ [':',' '] ++ truncated

/-- A discovered active session file (`getActiveSessionFiles`): session id,
current `mtimeMs`, the label derived from the index key, and the decoded
lines of its JSONL log. -/
structure SessFile where
  sessionId : Str
  mtime : Nat
  label : Str
  lines : List LogLine
deriving DecidableEq, Repr

/-- Per-session tracker entry (`state.files[sessionId]`). -/
structure FileSt where
  mtime : Nat
  offset : Nat
deriving DecidableEq, Repr

/-- The session-ingest state (`data/session-ingest-state.json`). -/
structure SessState where
  files : List (Str × FileSt)
  lastRun : Nat
deriving DecidableEq, Repr

/-- Lookup of `state.files[sessionId]`. -/
def stLookup (fs : List (Str × FileSt)) (k : Str) : Option FileSt :=
  match fs with
  | [] => none
  | kv :: rest => if kv.1 == k then some kv.2 else stLookup rest k

/-- `state.files[sessionId] = v`. -/
def stSet (fs : List (Str × FileSt)) (k : Str) (v : FileSt) :
    List (Str × FileSt) :=
  if fs.any (fun kv => kv.1 == k) then
    fs.map (fun kv => if kv.1 == k then (k, v) else kv)
  else fs ++ [(k, v)]

/-- The message-selection loop of `ingest-sessions.js` (`main`, lines
143-147): all parsed messages from index `lastOffset` on that survive the
noise filter. -/
def selectNew (lastOffset : Nat) (messages : List Msg) : List Msg :=
  (messages.drop lastOffset).filter (fun m => !shouldSkipMessage m)

/-- The per-session tracker update of `ingest-sessions.js` (`main`, lines
131-172): when the file mtime has not advanced the entry is untouched,
otherwise it becomes `{ mtime, offset: messages.length }` (both the
empty-selection branch at line 150 and the normal branch at line 171 store
the full parsed message count). -/
def stepFileState (fileSt : Option FileSt) (sf : SessFile) : Option FileSt :=
  let lastMtime := (fileSt.map (·.mtime)).getD 0
  if sf.mtime ≤ lastMtime then fileSt
  else some ⟨sf.mtime, (parseJSONL sf.lines).length⟩

/-- Fuel-driven worker for `msgBatches`; the fuel bounds the list length so
the recursion is structural. -/
def msgBatchesGo : Nat → List Msg → List (List Msg)
  | _, [] => []
  | 0, _ :: _ => []
  | fuel + 1, l@(_ :: _) => l.take 5 :: msgBatchesGo fuel (l.drop 5)

/-- Batches of up to 5 messages (`MSGS_PER_CHUNK`), in order. -/
def msgBatches (l : List Msg) : List (List Msg) :=
  msgBatchesGo l.length l

/-- `"\n\n"`-joined rendering of one batch. -/
def renderBatch (label : Str) (batch : List Msg) : Str :=
  joinSep [nlChar, nlChar] (batch.map (fun m => formatMsg m label))

/-- The chunk texts one session contributes (`main`, lines 154-168): render
each batch of 5 surviving messages and drop renderings shorter than 30
characters. -/
def sessionChunkTexts (label : Str) (newMessages : List Msg) : List Str :=
  (msgBatches newMessages).map (renderBatch label)
    |>.filter (fun t => !(strLen t < 30))

/-- The per-file loop body of `main` in `ingest-sessions.js`, threading the
tracker map and accumulating chunk texts (paired with the session id). -/
def sessLoopStep (acc : List (Str × FileSt) × List (Str × Str))
    (sf : SessFile) : List (Str × FileSt) × List (Str × Str) :=
  let fs := acc.1
  let lastMtime := ((stLookup fs sf.sessionId).map (·.mtime)).getD 0
  let lastOffset := ((stLookup fs sf.sessionId).map (·.offset)).getD 0
  if sf.mtime ≤ lastMtime then acc
  else
    let messages := parseJSONL sf.lines
    let newMessages := selectNew lastOffset messages
    let fs' := stSet fs sf.sessionId ⟨sf.mtime, messages.length⟩
    (fs', acc.2 ++ (sessionChunkTexts sf.label newMessages).map
      (fun t => (t, sf.sessionId)))

/-- How a run of `ingest-sessions.js` ended. -/
inductive SessStatus
  | tooSoon
  | noSessions
  | noNewMessages
  | embedFail
  | ok
deriving DecidableEq, Repr

/-- Observable outcome of one `ingest-sessions.js` run. -/
structure SessOut where
  index : List Doc
  state : SessState
  status : SessStatus
  wroteIndex : Bool
  wroteState : Bool
  submitted : List Str
deriving DecidableEq, Repr

/-- One run of `main` in `ingest-sessions.js`, as a pure function.
`st0` is the loaded state, `sfs` the active session files, `docs0` the
store on disk, `now` is `Date.now()`. -/
def sessionsRun (st0 : SessState) (sfs : List SessFile) (docs0 : List Doc)
    (embed : EmbedFn) (now : Nat) : SessOut :=
  if now - st0.lastRun < 50000 then
    { index := docs0, state := st0, status := .tooSoon,
      wroteIndex := false, wroteState := false, submitted := [] }
  else if sfs = [] then
    { index := docs0, state := { st0 with lastRun := now },
      status := .noSessions, wroteIndex := false, wroteState := true,
      submitted := [] }
  else
    let r := sfs.foldl sessLoopStep (st0.files, [])
    let allNewTexts := r.2.map (·.1)
    if allNewTexts = [] then
      { index := docs0, state := { files := r.1, lastRun := now },
        status := .noNewMessages, wroteIndex := false, wroteState := true,
        submitted := [] }
    else
      let truncated := allNewTexts.map (fun t => jsSlice t 8000)
      match embed truncated with
      | none =>
        { index := docs0, state := st0, status := .embedFail,
          wroteIndex := false, wroteState := false, submitted := truncated }
      | some embeddings =>
        let newDocs := r.2.enum.map (fun ti =>
          { id := ['s'] ++ ti.2.2, file := ['s','e','s','s','i','o','n',':'] ++ ti.2.2,
            startLine := 0, endLine := 0,
            heading := ['C','h','a','t'],
            text := ti.2.1, vector := embeddings.getD ti.1 [],
            indexedAt := now, meta := some (ti.2.2, ti.2.1) : Doc })
        { index := docs0 ++ newDocs,
          state := { files := r.1, lastRun := now }, status := .ok,
          wroteIndex := true, wroteState := true, submitted := truncated }

/-! ## Ad-hoc ingestion (`ingest.js`) -/

/-- How a run of `ingest.js` ended. -/
inductive IngStatus
  | noContent
  | embedFail
  | ok
deriving DecidableEq, Repr

/-- Observable outcome of one `ingest.js` run. -/
structure IngOut where
  index : List Doc
  status : IngStatus
  wroteIndex : Bool
  submitted : List Str
deriving DecidableEq, Repr

/-- The `"ingest:"` source key. -/
def ingestKey (source : Str) : Str :=
  ['i','n','g','e','s','t',':'] ++ source

/-- One run of `main` in `ingest.js`, as a pure function. -/
def ingestRun (source text : Str) (docs0 : List Doc) (embed : EmbedFn)
    (now : Nat) : IngOut :=
  let chunks := chunkMarkdown text (ingestKey source)
  if chunks = [] then
    { index := docs0, status := .noContent, wroteIndex := false,
      submitted := [] }
  else
    let texts := chunks.map (fun c => jsSlice c.text 8000)
    match embed texts with
    | none =>
      { index := docs0, status := .embedFail, wroteIndex := false,
        submitted := texts }
    | some embeddings =>
      let filtered := docs0.filter (fun d => !(d.file == ingestKey source))
      let newDocs := chunks.enum.map (fun ci =>
        { id := ingestKey source, file := ingestKey source,
          startLine := ci.2.startLine, endLine := ci.2.endLine,
          heading := ci.2.heading, text := ci.2.text,
          vector := embeddings.getD ci.1 [], indexedAt := now : Doc })
      { index := filtered ++ newDocs, status := .ok, wroteIndex := true,
        submitted := texts }

/-! ## Loaders (`lib.js` `loadIndex`/`loadFileMeta`, `ingest-sessions.js`
`loadState`) -/

/-- What reading a persisted JSON file can yield: the file is absent, its
content fails `JSON.parse`, or it parses to a value of the expected
shape. -/
inductive FileRead (α : Type)
  | absent
  | malformed
  | parsed (a : α)
deriving DecidableEq, Repr

/-- A thrown JavaScript error (here: only `JSON.parse` failure matters). -/
inductive JsErr
  | parseError
deriving DecidableEq, Repr

/-- `loadIndex` from `lib.js` (lines 160-164): an absent file yields `[]`;
`JSON.parse` is called with no surrounding `try`, so malformed content
throws. -/
def loadIndexM (r : FileRead (List Doc)) : Except JsErr (List Doc) :=
  match r with
  | .absent => .ok []
  | .malformed => .error .parseError
  | .parsed docs => .ok docs

/-- `loadFileMeta` from `lib.js` (lines 171-175): an absent file yields
`{}`; `JSON.parse` is called with no surrounding `try`, so malformed
content throws. -/
def loadFileMetaM (r : FileRead FileMeta) : Except JsErr FileMeta :=
  match r with
  | .absent => .ok []
  | .malformed => .error .parseError
  | .parsed m => .ok m

/-- The default session-ingest state. -/
def defaultSessState : SessState := { files := [], lastRun := 0 }

/-- `loadState` from `ingest-sessions.js` (lines 14-23): an absent file
yields the default state, and the `JSON.parse` call is wrapped in
`try/catch`, so malformed content also yields the default state.  A parsed
state with a missing `files` field gets `{}` patched in. -/
def loadStateM (r : FileRead (Option (List (Str × FileSt)) × Nat)) :
    Except JsErr SessState :=
  match r with
  | .absent => .ok defaultSessState
  | .malformed => .ok defaultSessState
  | .parsed (files?, lastRun) =>
    .ok { files := files?.getD [], lastRun := lastRun }

/-! ## Search (`search.js`) and cosine similarity (`lib.js`) -/

/-- One search result entry (`search.js`, lines 28-35), with the score kept
abstract in `α` (a plain rational for NaN-free stores, `Option Rat` for the
NaN-aware model). -/
structure SRes (α : Type) where
  file : Str
  startLine : Nat
  endLine : Nat
  heading : Str
  score : α
  preview : Str
deriving DecidableEq, Repr

/-- Stable insertion of one entry into a descending-sorted list: the entry
goes after every earlier entry whose score is at least as large.  This is
the behaviour of `Array.prototype.sort` with comparator
`(a, b) => b.score - a.score` (a stable sort, per ECMA-262). -/
def insertDesc (le : α → α → Bool) (x : SRes α) : List (SRes α) → List (SRes α)
  | [] => [x]
  | y :: ys => if le x.score y.score then y :: insertDesc le x ys
               else x :: y :: ys

/-- Stable descending sort by score (`scored.sort((a, b) => b.score - a.score)`
in `search.js`). -/
def sortDesc (le : α → α → Bool) (l : List (SRes α)) : List (SRes α) :=
  l.foldl (fun acc x => insertDesc le x acc) []

/-- Rational-score comparison. -/
def ratLe (a b : Rat) : Bool := decide (a ≤ b)

/-- The ranking stage of `search.js` (lines 37-38): stable-sort descending
by score, drop entries below `minScore`, then truncate to `limit`. -/
def rankResults (scored : List (SRes Rat)) (minScore : Rat) (limit : Nat) :
    List (SRes Rat) :=
  (((sortDesc ratLe scored).filter (fun r => minScore ≤ r.score)).take limit)

/-! ### NaN-aware model of the score computation (`cosineSimilarity`) -/

/-- A JavaScript number as the claims need it: `none` is `NaN`, `some q` a
(finite, exactly represented) number.  Rounding and overflow are not
modelled; `Math.sqrt` is abstracted by a function parameter constrained
where the claims need it (`sqrt 0 = 0`). -/
abbrev JsNum := Option Rat

/-- NaN-propagating addition. -/
def jsAdd : JsNum → JsNum → JsNum
  | some a, some b => some (a + b)
  | _, _ => none

/-- NaN-propagating multiplication. -/
def jsMul : JsNum → JsNum → JsNum
  | some a, some b => some (a * b)
  | _, _ => none

/-- Division: NaN operands propagate, and a zero denominator yields a
non-number (`0 / 0` is NaN; the model collapses the infinite results of
`x / 0`, which cannot arise in the claims proved here since a zero
denominator forces a zero numerator). -/
def jsDiv : JsNum → JsNum → JsNum
  | some a, some b => if b = 0 then none else some (a / b)
  | _, _ => none

/-- `Math.sqrt` on a non-NaN operand, via an abstract nonnegative-real
square root `sqrtFn`; negative operands give NaN. -/
def jsSqrt (sqrtFn : Rat → Rat) : JsNum → JsNum
  | none => none
  | some q => if q < 0 then none else some (sqrtFn q)

/-- JavaScript indexing `v[i]` on an array of numbers: out of bounds gives
`undefined`, which the arithmetic above turns into NaN. -/
def jsIdx (v : Vec) (i : Nat) : JsNum :=
  match v.get? i with
  | some q => some q
  | none => none

/-- One iteration of the `cosineSimilarity` loop body in `lib.js` (lines
230-234): accumulate `dot`, `na`, `nb`. -/
def cosStep (a b : Vec) (acc : JsNum × JsNum × JsNum) (i : Nat) :
    JsNum × JsNum × JsNum :=
  (jsAdd acc.1 (jsMul (jsIdx a i) (jsIdx b i)),
   jsAdd acc.2.1 (jsMul (jsIdx a i) (jsIdx a i)),
   jsAdd acc.2.2 (jsMul (jsIdx b i) (jsIdx b i)))

/-- The accumulator loop of `cosineSimilarity` in `lib.js` (lines 228-236):
`for i in [0, a.length)` accumulate `dot`, `na`, `nb`. -/
def cosAcc (a b : Vec) : JsNum × JsNum × JsNum :=
  (List.range a.length).foldl (cosStep a b) (some 0, some 0, some 0)

/-- `cosineSimilarity(a, b)` from `lib.js`:
`dot / (Math.sqrt(na) * Math.sqrt(nb))`, with no guard for a zero
denominator. -/
def cosineSimilarityJs (sqrtFn : Rat → Rat) (a b : Vec) : JsNum :=
  let acc := cosAcc a b
  jsDiv acc.1 (jsMul (jsSqrt sqrtFn acc.2.1) (jsSqrt sqrtFn acc.2.2))

/-- The JavaScript comparison `score >= minScore` (false when the score is
NaN). -/
def jsGeB (score : JsNum) (minScore : Rat) : Bool :=
  match score with
  | none => false
  | some s => decide (minScore ≤ s)

/-- Comparator-order test used by the sort stage in the NaN-aware model
(`b.score - a.score <= 0` treated as "x not before y"; with NaN present the
engine order is unspecified, and no claim proved here depends on it). -/
def jsNumLe (a b : JsNum) : Bool :=
  match a, b with
  | some a, some b => decide (a ≤ b)
  | _, _ => true

/-- The full result computation of `search.js` (lines 28-38) over the
NaN-aware score model. -/
def searchRunJs (sqrtFn : Rat → Rat) (queryVec : Vec) (docs : List Doc)
    (minScore : Rat) (limit : Nat) : List (SRes JsNum) :=
  let scored := docs.map (fun d =>
    { file := d.file, startLine := d.startLine, endLine := d.endLine,
      heading := d.heading,
      score := cosineSimilarityJs sqrtFn queryVec d.vector,
      preview := jsSlice d.text 300 : SRes JsNum })
  ((sortDesc jsNumLe scored).filter (fun r => jsGeB r.score minScore)).take limit

/-! ## Concrete instances used by witnesses and counterexamples -/

/-- First paragraph of the oversized-chunk document: 99 characters. -/
def pA : Str := List.replicate 99 'a'

/-- Second paragraph of the oversized-chunk document: 2950 characters. -/
def pB : Str := List.replicate 2950 'b'

/-- A 3051-character two-paragraph body. -/
def c5Text : Str := pA ++ [nlChar, nlChar] ++ pB

/-- A source path. -/
def c5Fp : Str := ['n','o','t','e','s']

/-- The single chunk `chunkMarkdown` emits for `c5Text`. -/
def c5Chunk : Chunk := ⟨c5Text, c5Fp, 1, 3, []⟩

/-- A 25-character single-line document. -/
def smallText : Str := List.replicate 25 'x'

/-- A crawled file at path `"a"` with a 25-character body. -/
def fileA : CrawlFile := ⟨['a'], 5, smallText⟩

/-- A crawled file at path `"b"`, already tracked at mtime 3. -/
def fileB : CrawlFile := ⟨['b'], 3, smallText⟩

/-- A tiny crawled file whose content is below the 20-character chunk
floor. -/
def tinyFile : CrawlFile := ⟨['t'], 5, ['h','i']⟩

/-- A stored chunk whose source is the path `"b"`. -/
def docB : Doc :=
  { id := ['b'], file := ['b'], startLine := 1, endLine := 1, heading := [],
    text := smallText, vector := [1], indexedAt := 0 }

/-- An embedding capability that always succeeds. -/
def embedOne : EmbedFn := fun ts => some (ts.map (fun _ => [(1 : Rat)]))

/-- An embedding capability whose batch call always throws. -/
def embedNone : EmbedFn := fun _ => none

/-- A 40-character user message (survives the noise filter). -/
def msgBig : Msg := ⟨['u','s','e','r'], .str (List.replicate 40 'm')⟩

/-- A second surviving user message. -/
def msgBig2 : Msg := ⟨['u','s','e','r'], .str (List.replicate 35 'n')⟩

/-- A session file with one decodable message, at mtime 2. -/
def sfShrink : SessFile := ⟨['s'], 2, ['l'], [some msgBig]⟩

/-- A session file whose log is `[msgBig]` extended by `[msgBig2]`. -/
def sfGrown : SessFile := ⟨['s'], 2, ['l'], [some msgBig] ++ [some msgBig2]⟩

/-- A high-scoring search result row. -/
def sHi : SRes Rat := ⟨['h'], 1, 2, [], 2, []⟩

/-- A low-scoring search result row. -/
def sLo : SRes Rat := ⟨['l'], 3, 4, [], 0, []⟩

/-! # Bridging lemmas -/

theorem strLenGo_eq (n : Nat) (s : Str) : strLenGo n s = n + s.length := by
  induction s generalizing n with
  | nil => simp [strLenGo]
  | cons c rest ih => simp only [strLenGo, ih, List.length_cons]; omega

/-- `strLen` agrees with `List.length`. -/
theorem strLen_eq_length (s : Str) : strLen s = s.length := by
  simp [strLen, strLenGo_eq]

theorem strLen_append (s t : Str) : strLen (s ++ t) = strLen s + strLen t := by
  simp [strLen_eq_length]

theorem strLen_replicate (n : Nat) (c : Char) :
    strLen (List.replicate n c) = n := by
  simp [strLen_eq_length]

theorem strLen_nil : strLen [] = 0 := rfl

/-- Trimming never lengthens a string. -/
theorem strLen_jsTrim_le (s : Str) : strLen (jsTrim s) ≤ strLen s := by
  simp only [strLen_eq_length, jsTrim, List.length_reverse]
  calc ((s.dropWhile isWsChar).reverse.dropWhile isWsChar).length
      ≤ (s.dropWhile isWsChar).reverse.length :=
        (List.dropWhile_sublist _).length_le
    _ = (s.dropWhile isWsChar).length := List.length_reverse _
    _ ≤ s.length := (List.dropWhile_sublist _).length_le

/-- A block of one repeated non-newline character is copied into the
accumulator by the line splitter. -/
theorem splitNlGo_block (c : Char) (hc : ¬ c = nlChar) (n : Nat) :
    ∀ (acc rest : Str),
      splitNlGo acc (List.replicate n c ++ rest)
        = splitNlGo (List.replicate n c ++ acc) rest := by
  induction n with
  | zero => intro acc rest; rw [List.replicate_zero, List.nil_append,
      List.nil_append]
  | succ n ih =>
    intro acc rest
    rw [List.replicate_succ, List.cons_append]
    rw [splitNlGo, if_neg hc]
    rw [ih (c :: acc) rest, List.append_cons, ← List.replicate_succ',
      List.replicate_succ, List.cons_append]

/-- A block of one repeated non-newline character is copied into the
accumulator by the paragraph splitter. -/
theorem splitParasGo_block (c : Char) (hc : ¬ c = nlChar) (n : Nat) :
    ∀ (acc rest : Str),
      splitParasGo acc (List.replicate n c ++ rest)
        = splitParasGo (List.replicate n c ++ acc) rest := by
  induction n with
  | zero => intro acc rest; rw [List.replicate_zero, List.nil_append,
      List.nil_append]
  | succ n ih =>
    intro acc rest
    rw [List.replicate_succ, List.cons_append]
    cases n with
    | zero =>
      rw [List.replicate_zero, List.nil_append]
      cases rest with
      | nil =>
        rw [splitParasGo, splitParasGo]
        simp only [List.replicate_one, List.singleton_append]
      | cons r rs =>
        rw [splitParasGo, if_neg (by simp [hc]), if_neg hc]
        simp only [List.replicate_one, List.singleton_append]
    | succ m =>
      rw [List.replicate_succ, List.cons_append]
      rw [splitParasGo, if_neg (by simp [hc]), if_neg hc]
      rw [← List.cons_append, ← List.replicate_succ]
      rw [ih (c :: acc) rest]
      rw [List.append_cons, ← List.replicate_succ',
        List.replicate_succ, List.cons_append]

theorem not_nl_a : ¬ 'a' = nlChar := by decide

theorem not_nl_b : ¬ 'b' = nlChar := by decide

/-- The line decomposition of the two-paragraph body. -/
theorem splitNl_c5Text : splitNl c5Text = [pA, [], pB] := by
  rw [c5Text, pA, pB, splitNl, List.append_assoc, List.cons_append,
    List.cons_append, List.nil_append,
    splitNlGo_block 'a' not_nl_a 99 [] _]
  rw [List.append_nil]
  show splitNlGo (List.replicate 99 'a') (nlChar :: nlChar :: List.replicate 2950 'b')
    = _
  rw [splitNlGo, if_pos rfl, splitNlGo, if_pos rfl]
  rw [show (List.replicate 2950 'b' : Str)
      = List.replicate 2950 'b' ++ [] from (List.append_nil _).symm,
    splitNlGo_block 'b' not_nl_b 2950 [] []]
  simp only [List.append_nil]
  rw [splitNlGo, List.reverse_replicate, List.reverse_replicate,
    List.reverse_nil]

/-- The trimmed join of the three lines is the body itself. -/
theorem joinNl_c5 : joinNl [pA, [], pB] = c5Text := by
  simp [joinNl, joinSep, c5Text]

theorem isWs_a : isWsChar 'a' = false := by decide

theorem isWs_b : isWsChar 'b' = false := by decide

/-- Dropping whitespace from a string that starts with a nonempty block of
a non-whitespace character does nothing. -/
theorem dropWhile_block (c : Char) (hc : isWsChar c = false) (n : Nat)
    (hn : n ≠ 0) (rest : Str) :
    (List.replicate n c ++ rest).dropWhile isWsChar
      = List.replicate n c ++ rest := by
  cases n with
  | zero => exact absurd rfl hn
  | succ n =>
    rw [List.replicate_succ, List.cons_append, List.dropWhile_cons, hc]
    simp

/-- `c5Text` is already trimmed. -/
theorem jsTrim_c5Text : jsTrim c5Text = c5Text := by
  rw [jsTrim, c5Text, pA, pB, List.append_assoc,
    dropWhile_block 'a' isWs_a 99 (by omega)]
  simp only [List.reverse_append, List.reverse_replicate, List.reverse_cons,
    List.reverse_nil, List.nil_append, List.append_assoc, List.cons_append,
    List.singleton_append]
  rw [dropWhile_block 'b' isWs_b 2950 (by omega)]
  simp only [List.reverse_append, List.reverse_replicate, List.reverse_cons,
    List.reverse_nil, List.nil_append, List.append_assoc, List.cons_append,
    List.singleton_append]

/-- Dropping separator newlines from a repeated non-newline block does
nothing. -/
theorem dropNls_replicate (c : Char) (hc : ¬ c = nlChar) (n : Nat) :
    dropNls (List.replicate n c) = List.replicate n c := by
  cases n with
  | zero => rfl
  | succ n =>
    rw [List.replicate_succ, dropNls, List.dropWhile_cons]
    simp [hc]

/-- The paragraph decomposition of the two-paragraph body. -/
theorem splitParas_c5Text : splitParas c5Text = [pA, pB] := by
  rw [c5Text, pA, pB, splitParas, List.append_assoc, List.cons_append,
    List.cons_append, List.nil_append,
    splitParasGo_block 'a' not_nl_a 99 [] _]
  rw [List.append_nil]
  rw [splitParasGo, if_pos ⟨rfl, rfl⟩]
  rw [List.reverse_replicate, dropNls_replicate 'b' not_nl_b 2950]
  rw [show (List.replicate 2950 'b' : Str)
      = List.replicate 2950 'b' ++ [] from (List.append_nil _).symm,
    splitParasGo_block 'b' not_nl_b 2950 [] []]
  simp only [List.append_nil]
  rw [splitParasGo, List.reverse_replicate]

theorem strLen_c5Text : strLen c5Text = 3051 := by
  rw [strLen_eq_length, c5Text, pA, pB]
  simp only [List.length_append, List.length_replicate, List.length_cons,
    List.length_nil]

/-- `splitNl` keeps a newline-free block whole. -/
theorem splitNl_pA : splitNl pA = [pA] := by
  rw [pA, splitNl,
    show (List.replicate 99 'a' : Str) = List.replicate 99 'a' ++ []
      from (List.append_nil _).symm,
    splitNlGo_block 'a' not_nl_a 99 [] []]
  simp only [List.append_nil]
  rw [splitNlGo, List.reverse_replicate]

theorem strLen_pA : strLen pA = 99 := by rw [pA, strLen_replicate]

theorem strLen_pB : strLen pB = 2950 := by rw [pB, strLen_replicate]

theorem pA_ne_nil : ¬ pA = [] := by
  intro h
  have := congrArg List.length h
  rw [pA, List.length_replicate] at this
  simp at this

/-- Evaluation of the paragraph-packing loop on the two paragraphs: no
mid-loop flush fires (the first buffer is only 99 characters, below the
101-character flush floor), so everything lands in one buffer. -/
theorem packLoop_c5 :
    packLoop c5Fp [] 1 [pA, pB] [] 1 0 = ([], c5Text, 1) := by
  rw [packLoop, if_neg (by rw [strLen_nil, strLen_pA]; omega)]
  simp only []
  show packLoop c5Fp [] 1 [pB] pA 1 (0 + (splitNl pA).length + 1)
    = ([], c5Text, 1)
  rw [packLoop, if_neg (by rw [strLen_pA, strLen_pB]; omega)]
  simp only []
  rw [if_neg pA_ne_nil]
  rw [packLoop]
  rfl

/-- Evaluation of `flush` on the accumulated three-line section. -/
theorem flushSect_c5 : flushSect ⟨[pA, [], pB], 1, []⟩ c5Fp = [c5Chunk] := by
  rw [flushSect]
  simp only [joinNl_c5, jsTrim_c5Text, strLen_c5Text, splitParas_c5Text]
  rw [if_neg (by omega), if_pos (by norm_num [maxChars])]
  rw [packLoop_c5]
  simp only [jsTrim_c5Text, strLen_c5Text]
  rw [if_pos (by omega)]
  simp only [List.nil_append, c5Chunk, List.length_cons, List.length_nil]

/-- Evaluation of the chunker on the two-paragraph body: one chunk of 3051
characters is emitted. -/
theorem chunkMarkdown_c5 : chunkMarkdown c5Text c5Fp = [c5Chunk] := by
  rw [chunkMarkdown, splitNl_c5Text]
  rw [chunkLoop, if_neg (by decide)]
  rw [chunkLoop, if_neg (by decide)]
  rw [chunkLoop, if_neg (by decide)]
  rw [chunkLoop]
  have hlines : (([] : List Str) ++ [pA] ++ [[]] ++ [pB]) = [pA, [], pB] := by
    simp only [List.nil_append, List.cons_append, List.append_nil]
  show flushSect ⟨([] : List Str) ++ [pA] ++ [[]] ++ [pB], 1, []⟩ c5Fp = _
  rw [hlines]
  exact flushSect_c5

/-! ## C5: chunk size bound -/

/-- The chunk emitted for `smallText`. -/
theorem strLen_smallText : strLen smallText = 25 := by
  rw [smallText, strLen_replicate]

/-- `chunkLoop` is `flush` applied to each section in order. -/
theorem chunkLoop_sections (fp : Str) :
    ∀ (lines : List Str) (cur : Sect) (i : Nat),
      chunkLoop fp cur i lines
        = (sectionsGo cur i lines).flatMap (fun s => flushSect s fp) := by
  intro lines
  induction lines with
  | nil =>
    intro cur i
    rw [chunkLoop, sectionsGo]
    simp
  | cons line rest ih =>
    intro cur i
    rw [chunkLoop, sectionsGo]
    by_cases h : isHeadingLine line ∧ cur.lines ≠ []
    · rw [if_pos h, if_pos h, ih]
      simp
    · rw [if_neg h, if_neg h, ih]

theorem maxChars_eq : maxChars = 3000 := rfl

theorem strLen_nlnl : strLen [nlChar, nlChar] = 2 := rfl

/-- Invariant of the paragraph-packing loop: if every paragraph is at most
`P` characters, every flushed chunk and the final buffer are at most
`max 3002 (102 + P)` characters (the separator `"\n\n"` is not counted by
the overflow test, and a buffer of at most 100 characters is never
flushed). -/
theorem packLoop_bound (fp hd : Str) (cs P : Nat) :
    ∀ (paras : List Str) (buf : Str) (bs lo : Nat),
      (∀ p ∈ paras, strLen p ≤ P) → strLen buf ≤ max 3002 (102 + P) →
      (∀ c ∈ (packLoop fp hd cs paras buf bs lo).1,
        strLen c.text ≤ max 3002 (102 + P))
      ∧ strLen (packLoop fp hd cs paras buf bs lo).2.1 ≤ max 3002 (102 + P) := by
  intro paras
  induction paras with
  | nil =>
    intro buf bs lo _ hb
    rw [packLoop]
    exact ⟨by simp, hb⟩
  | cons para rest ih =>
    intro buf bs lo hp hb
    have hpara : strLen para ≤ P := hp para (List.mem_cons_self _ _)
    have hrest : ∀ p ∈ rest, strLen p ≤ P :=
      fun p h => hp p (List.mem_cons_of_mem _ h)
    have hparaM : strLen para ≤ max 3002 (102 + P) :=
      le_trans hpara (le_trans (by omega) (le_max_right _ _))
    rw [packLoop]
    by_cases hcond : strLen buf + strLen para > maxChars ∧ strLen buf > 100
    · rw [if_pos hcond]
      simp only []
      have ihr := ih para (cs + lo) (lo + (splitNl para).length + 1) hrest hparaM
      refine ⟨?_, ihr.2⟩
      intro c hc
      rcases List.mem_cons.mp hc with rfl | hc
      · exact le_trans (strLen_jsTrim_le buf) hb
      · exact ihr.1 c hc
    · rw [if_neg hcond]
      simp only []
      by_cases hbe : buf = []
      · rw [if_pos hbe]
        exact ih para bs (lo + (splitNl para).length + 1) hrest hparaM
      · rw [if_neg hbe]
        have hb2 : strLen (buf ++ [nlChar, nlChar] ++ para)
            ≤ max 3002 (102 + P) := by
          rw [strLen_append, strLen_append, strLen_nlnl]
          rcases not_and_or.mp hcond with h1 | h2
          · have h1' : strLen buf + strLen para ≤ 3000 := by
              rw [maxChars_eq] at h1; omega
            exact le_trans (by omega) (le_max_left _ _)
          · have h2' : strLen buf ≤ 100 := by omega
            exact le_trans (by omega) (le_max_right _ _)
        exact ih (buf ++ [nlChar, nlChar] ++ para) bs
          (lo + (splitNl para).length + 1) hrest hb2

/-- `flush` on one section obeys the same bound. -/
theorem flushSect_bound (P : Nat) (s : Sect) (fp : Str)
    (hp : ∀ p ∈ sectParas s, strLen p ≤ P) :
    ∀ c ∈ flushSect s fp, strLen c.text ≤ max 3002 (102 + P) := by
  intro c hc
  rw [flushSect] at hc
  simp only [] at hc
  by_cases h1 : strLen (jsTrim (joinNl s.lines)) < 20
  · rw [if_pos h1] at hc
    simp at hc
  · rw [if_neg h1] at hc
    by_cases h2 : strLen (jsTrim (joinNl s.lines)) > maxChars
    · rw [if_pos h2] at hc
      have hpk := packLoop_bound fp s.heading s.startLine P
        (splitParas (jsTrim (joinNl s.lines))) [] s.startLine 0 hp
        (by rw [strLen_nil]; omega)
      by_cases h3 : 20 < strLen (jsTrim ((packLoop fp s.heading s.startLine
          (splitParas (jsTrim (joinNl s.lines))) [] s.startLine 0).2.1))
      · rw [if_pos h3] at hc
        rcases List.mem_append.mp hc with hc | hc
        · exact hpk.1 c hc
        · rw [List.mem_singleton] at hc
          subst hc
          exact le_trans (strLen_jsTrim_le _) hpk.2
      · rw [if_neg h3] at hc
        exact hpk.1 c hc
    · rw [if_neg h2] at hc
      rw [List.mem_singleton] at hc
      subst hc
      rw [maxChars_eq] at h2
      refine le_trans ?_ (le_max_left _ _)
      show strLen (jsTrim (joinNl s.lines)) ≤ 3002
      omega

/-- A member of a list of naturals is at most the folded maximum. -/
theorem mem_le_foldr_max (a : Nat) : ∀ (l : List Nat), a ∈ l → a ≤ l.foldr max 0 := by
  intro l
  induction l with
  | nil => intro h; simp at h
  | cons b rest ih =>
    intro h
    rcases List.mem_cons.mp h with rfl | h
    · exact le_max_left _ _
    · exact le_trans (ih h) (le_max_right _ _)

/-- C5 (amended): every chunk emitted by the chunker has text length at most
`max 3002 (102 + L)`, where `L` is the length of the longest
blank-line-separated paragraph of the document.  In particular the length
is at most 3002 whenever every paragraph is at most 2900 characters; the
spec's stated bound of 3000 with a single-oversized-paragraph exception
does not hold (see the counterexample), because the `"\n\n"` separator is
not counted by the overflow test and a buffer of at most 100 characters is
never flushed. -/
theorem chunk_size_bound (text fp : Str) :
    ∀ c ∈ chunkMarkdown text fp,
      strLen c.text ≤ max 3002 (102 + maxParaLen text) := by
  intro c hc
  rw [chunkMarkdown, chunkLoop_sections] at hc
  rcases List.mem_flatMap.mp hc with ⟨s, hs, hcs⟩
  refine flushSect_bound (maxParaLen text) s fp ?_ c hcs
  intro p hp
  have hmem : p ∈ docParas text := by
    rw [docParas]
    exact List.mem_flatMap.mpr ⟨s, hs, hp⟩
  exact mem_le_foldr_max (strLen p) _
    (List.mem_map.mpr ⟨p, hmem, rfl⟩)

/-- Witness for C5 (amended) at a concrete 25-character document. -/
theorem chunk_size_bound_witness :
    strLen (Chunk.text ⟨smallText, ['f'], 1, 1, []⟩)
      ≤ max 3002 (102 + maxParaLen smallText) :=
  chunk_size_bound smallText ['f'] ⟨smallText, ['f'], 1, 1, []⟩ (by decide)

/-- C5 (counterexample): on the two-paragraph 3051-character document, the
chunker emits a single chunk of 3051 characters whose two paragraphs are 99
and 2950 characters — a chunk longer than 3000 characters that was not
produced from a single paragraph exceeding 3000 characters. -/
theorem chunk_size_counterexample :
    (chunkMarkdown c5Text c5Fp).map (fun c => strLen c.text) = [3051] ∧
    (splitParas c5Chunk.text).map strLen = [99, 2950] ∧
    c5Chunk ∈ chunkMarkdown c5Text c5Fp := by
  refine ⟨?_, ?_, ?_⟩
  · rw [chunkMarkdown_c5]
    simp only [List.map_cons, List.map_nil]
    rw [show c5Chunk.text = c5Text from rfl, strLen_c5Text]
  · rw [show c5Chunk.text = c5Text from rfl, splitParas_c5Text]
    simp only [List.map_cons, List.map_nil]
    rw [strLen_pA, strLen_pB]
  · rw [chunkMarkdown_c5]
    exact List.mem_singleton.mpr rfl

/-! ## Helper lemmas for the Workspace Indexer claims -/

theorem contains_iff_mem (l : List Str) (a : Str) : l.contains a = true ↔ a ∈ l :=
  List.elem_iff

/-- Every chunk the packing loop flushes carries the file path it was called
with. -/
theorem packLoop_file (fp hd : Str) (cs : Nat) :
    ∀ (paras : List Str) (buf : Str) (bs lo : Nat),
      ∀ c ∈ (packLoop fp hd cs paras buf bs lo).1, c.file = fp := by
  intro paras
  induction paras with
  | nil =>
    intro buf bs lo c hc
    rw [packLoop] at hc
    simp at hc
  | cons para rest ih =>
    intro buf bs lo c hc
    rw [packLoop] at hc
    simp only [] at hc
    split at hc
    · rcases List.mem_cons.mp hc with rfl | hc
      · rfl
      · exact ih _ _ _ c hc
    · exact ih _ _ _ c hc

/-- Every chunk `flush` emits carries the file path it was called with. -/
theorem flushSect_file (s : Sect) (fp : Str) :
    ∀ c ∈ flushSect s fp, c.file = fp := by
  intro c hc
  rw [flushSect] at hc
  simp only [] at hc
  split at hc
  · simp at hc
  · split at hc
    · split at hc
      · rcases List.mem_append.mp hc with hc | hc
        · exact packLoop_file _ _ _ _ _ _ _ c hc
        · rw [List.mem_singleton] at hc
          subst hc
          rfl
      · exact packLoop_file _ _ _ _ _ _ _ c hc
    · rw [List.mem_singleton] at hc
      subst hc
      rfl

/-- Every chunk of `chunkMarkdown text fp` has `file = fp`. -/
theorem chunkMarkdown_file (text fp : Str) :
    ∀ c ∈ chunkMarkdown text fp, c.file = fp := by
  intro c hc
  rw [chunkMarkdown, chunkLoop_sections] at hc
  rcases List.mem_flatMap.mp hc with ⟨s, _, hcs⟩
  exact flushSect_file s fp c hcs

theorem metaLookup_filter_not_mem (m : FileMeta) (cur : List Str) (k : Str)
    (hk : ¬ k ∈ cur) :
    metaLookup (m.filter (fun kv => cur.contains kv.1)) k = none := by
  induction m with
  | nil => rfl
  | cons a m ih =>
    rw [List.filter_cons]
    by_cases ha : cur.contains a.1 = true
    · rw [if_pos ha, metaLookup]
      have hak : (a.1 == k) = false := by
        rw [beq_eq_false_iff_ne]
        intro he
        exact hk ((contains_iff_mem cur k).mp (he ▸ ha))
      rw [hak, if_neg (by simp)]
      exact ih
    · rw [if_neg ha]
      exact ih

theorem metaLookup_map_set (m : FileMeta) (k : Str) (v : Nat)
    (h : m.any (fun kv => kv.1 == k) = true) :
    metaLookup (m.map (fun kv => if kv.1 == k then (k, v) else kv)) k
      = some v := by
  induction m with
  | nil => simp at h
  | cons a m ih =>
    rw [List.map_cons]
    by_cases hak : (a.1 == k) = true
    · rw [if_pos hak, metaLookup, if_pos (by simp)]
    · rw [if_neg hak, metaLookup, if_neg (by simp [Bool.not_eq_true] at hak; simp [hak])]
      rw [List.any_cons] at h
      rw [Bool.not_eq_true] at hak
      rw [hak, Bool.false_or] at h
      exact ih h

theorem metaLookup_append_single (m : FileMeta) (k : Str) (v : Nat) :
    metaLookup (m ++ [(k, v)]) k = match metaLookup m k with
      | some w => some w
      | none => some v := by
  induction m with
  | nil =>
    rw [List.nil_append, metaLookup, metaLookup, if_pos (by simp)]
  | cons a m ih =>
    rw [List.cons_append, metaLookup, metaLookup]
    by_cases hak : (a.1 == k) = true
    · rw [if_pos hak, if_pos hak]
    · rw [if_neg hak, if_neg hak]
      exact ih

theorem metaLookup_metaSet_self (m : FileMeta) (k : Str) (v : Nat) :
    metaLookup (metaSet m k v) k = some v := by
  rw [metaSet]
  by_cases h : m.any (fun kv => kv.1 == k) = true
  · rw [if_pos h]
    exact metaLookup_map_set m k v h
  · rw [if_neg h, metaLookup_append_single]
    have : metaLookup m k = none := by
      induction m with
      | nil => rfl
      | cons a m ih =>
        rw [List.any_cons] at h
        have ha : (a.1 == k) = false := by
          rcases Bool.or_eq_false_iff.mp ((Bool.not_eq_true _).mp h) with ⟨h1, _⟩
          exact h1
        have hm : ¬ m.any (fun kv => kv.1 == k) = true := by
          intro hm
          exact h (by rw [hm, Bool.or_true])
        rw [metaLookup, ha, if_neg (by simp)]
        exact ih hm
    rw [this]

theorem metaLookup_metaSet_other (m : FileMeta) (k : Str) (v : Nat) (q : Str)
    (hq : ¬ q = k) : metaLookup (metaSet m k v) q = metaLookup m q := by
  have hkq : (k == q) = false := by
    rw [beq_eq_false_iff_ne]
    intro he
    exact hq he.symm
  rw [metaSet]
  by_cases h : m.any (fun kv => kv.1 == k) = true
  · rw [if_pos h]
    clear h
    induction m with
    | nil => rfl
    | cons a m ih =>
      rw [List.map_cons, metaLookup]
      by_cases hak : (a.1 == k) = true
      · have haq : (a.1 == q) = false := by
          rw [beq_eq_false_iff_ne, eq_of_beq hak]
          intro he
          exact hq he.symm
        rw [if_pos hak, hkq, if_neg (by simp), metaLookup, haq,
          if_neg (by simp)]
        exact ih
      · rw [if_neg hak, metaLookup]
        by_cases haq : (a.1 == q) = true
        · simp only [haq, if_pos]
        · rw [Bool.not_eq_true] at haq
          rw [haq]
          exact ih
  · rw [if_neg h]
    clear h
    induction m with
    | nil => simp [metaLookup, hkq]
    | cons a m ih =>
      rw [List.cons_append, metaLookup, metaLookup]
      by_cases haq : (a.1 == q) = true
      · simp only [haq, if_pos]
      · rw [Bool.not_eq_true] at haq
        rw [haq]
        exact ih

theorem metaLookup_foldl_not_mem (l : List CrawlFile) (k : Str) :
    ∀ (m : FileMeta), (∀ g ∈ l, ¬ g.relPath = k) →
      metaLookup (l.foldl (fun m f => metaSet m f.relPath f.mtime) m) k
        = metaLookup m k := by
  induction l with
  | nil => intro m _; rfl
  | cons g l ih =>
    intro m hg
    rw [List.foldl_cons]
    rw [ih _ (fun x hx => hg x (List.mem_cons_of_mem _ hx))]
    exact metaLookup_metaSet_other m g.relPath g.mtime k
      (fun h => hg g (List.mem_cons_self _ _) h.symm)

theorem indexRun_false_eq (files : List CrawlFile) (meta0 : FileMeta)
    (docs0 : List Doc) (embed : EmbedFn) (now : Nat) :
    indexRun false files meta0 docs0 embed now
      = indexRunGo false files meta0 docs0 meta0 docs0 embed now := rfl

/-! ## C1: pruning of absent files -/

/-- C1 (amended): when a path `B` is absent from the current crawl, an
incremental run that reindexes at least one file and completes leaves no
chunk sourced from `B` in the store (status `ok` or `noContent`), and when
the run also embeds new chunks (status `ok`) the tracker it writes has no
entry for `B`.  The claim's further reach — pruning also on a run where no
crawled file's mtime advanced — fails (see the counterexample): that run
short-circuits before the merge and rewrites nothing. -/
theorem absent_file_pruned (files : List CrawlFile) (meta0 : FileMeta)
    (docs0 : List Doc) (embed : EmbedFn) (now : Nat) (B : Str)
    (hB : ¬ B ∈ files.map (·.relPath)) :
    ((indexRun false files meta0 docs0 embed now).status = .ok
        ∨ (indexRun false files meta0 docs0 embed now).status = .noContent →
      ∀ d ∈ (indexRun false files meta0 docs0 embed now).index, ¬ d.file = B)
    ∧ ((indexRun false files meta0 docs0 embed now).status = .ok →
      metaLookup (indexRun false files meta0 docs0 embed now).meta B = none) := by
  have hkept : ∀ (pred : Doc → Bool) d,
      d ∈ docs0.filter (fun d => pred d
        && (files.map (·.relPath)).contains d.file) → ¬ d.file = B := by
    intro pred d hd hdB
    have hm := List.mem_filter.mp hd
    have hcur : (files.map (·.relPath)).contains d.file = true := by
      have hb := hm.2
      simp only [Bool.and_eq_true] at hb
      exact hb.2
    have : d.file ∈ files.map (·.relPath) := (contains_iff_mem _ _).mp hcur
    rw [hdB] at this
    exact hB this
  rw [indexRun_false_eq, indexRunGo]
  simp only []
  by_cases h1 : files.filter (fileChanged false meta0) = []
  · rw [if_pos h1]
    constructor
    · intro h
      simp at h
    · intro h
      simp at h
  · rw [if_neg h1]
    by_cases h2 : (files.filter (fileChanged false meta0)).flatMap
        (fun f => chunkMarkdown f.content f.relPath) = []
    · rw [if_pos h2]
      constructor
      · intro _ d hd
        exact hkept _ d hd
      · intro h
        simp at h
    · rw [if_neg h2]
      split
      · constructor
        · intro h
          simp at h
        · intro h
          simp at h
      · constructor
        · intro _ d hd
          simp only [] at hd
          rcases List.mem_append.mp hd with hd | hd
          · exact hkept _ d hd
          · rcases List.mem_map.mp hd with ⟨ci, hci, rfl⟩
            intro hdB
            have hc2 : ci.2 ∈ (files.filter (fileChanged false meta0)).flatMap
                (fun f => chunkMarkdown f.content f.relPath) :=
              List.get?_mem (List.mem_enum_iff_get?.mp hci)
            rcases List.mem_flatMap.mp hc2 with ⟨f, hf, hcf⟩
            have hfile : ci.2.file = f.relPath := chunkMarkdown_file _ _ _ hcf
            have hfmem : f.relPath ∈ files.map (·.relPath) :=
              List.mem_map.mpr ⟨f, (List.mem_filter.mp hf).1, rfl⟩
            have hB2 : ci.2.file = B := hdB
            rw [hfile] at hB2
            rw [hB2] at hfmem
            exact hB hfmem
        · intro _
          rw [metaLookup_foldl_not_mem]
          · exact metaLookup_filter_not_mem meta0 _ B hB
          · intro g hg hgB
            have : g.relPath ∈ files.map (·.relPath) :=
              List.mem_map.mpr ⟨g, (List.mem_filter.mp hg).1, rfl⟩
            rw [hgB] at this
            exact hB this

/-- Witness for C1 (amended): the crawl sees only `fileA` (untracked, so it
is reindexed); the store holds a chunk for the absent path `"b"` and the
tracker an entry for it; after the run both are gone. -/
theorem absent_file_pruned_witness :
    (∀ d ∈ (indexRun false [fileA] [(['b'], 3)] [docB] embedOne 7).index,
      ¬ d.file = ['b'])
    ∧ metaLookup (indexRun false [fileA] [(['b'], 3)] [docB] embedOne 7).meta
        ['b'] = none := by
  have h := absent_file_pruned [fileA] [(['b'], 3)] [docB] embedOne 7 ['b']
    (by decide)
  exact ⟨h.1 (Or.inl (by decide)), h.2 (by decide)⟩

/-- C1 (counterexample): with only an unchanged file `"a"` crawled, a chunk
for the absent file `"b"` in the store, and a tracker entry for `"b"`, the
run completes reporting no changes and leaves both the stale chunk and the
stale tracker entry in place. -/
theorem absent_file_pruned_counterexample :
    (indexRun false [fileA] [(['a'], 5), (['b'], 3)] [docB] embedOne 9).status
        = .noChange
    ∧ (indexRun false [fileA] [(['a'], 5), (['b'], 3)] [docB] embedOne 9).index
        = [docB]
    ∧ metaLookup
        (indexRun false [fileA] [(['a'], 5), (['b'], 3)] [docB] embedOne 9).meta
        ['b'] = some 3 := by
  refine ⟨by decide, by decide, by decide⟩

/-! ## C6: incremental re-index touches only the changed file -/

theorem singleton_contains (x a : Str) :
    ([x].contains a) = (a == x) := by
  show ((a == x) || [].contains a) = (a == x)
  rw [show (([] : List Str).contains a) = false from rfl, Bool.or_false]

/-- C6: when the diff marks exactly `F` as changed, every stored chunk of
the other (still crawled) files survives the run unchanged, in order, with
all fields intact, and nothing else is added or removed: the store
restricted to sources other than `F` is exactly what it was before. -/
theorem incremental_frame (files : List CrawlFile) (meta0 : FileMeta)
    (docs0 : List Doc) (embed : EmbedFn) (now : Nat) (F : CrawlFile)
    (hto : files.filter (fileChanged false meta0) = [F])
    (hdocs : ∀ d ∈ docs0, d.file ∈ files.map (·.relPath))
    (hemb : ∀ ts, (embed ts).isSome = true) :
    (indexRun false files meta0 docs0 embed now).index.filter
        (fun d => !(d.file == F.relPath))
      = docs0.filter (fun d => !(d.file == F.relPath)) := by
  have hfilterIdem : ∀ (l : List Doc) (p : Doc → Bool),
      (l.filter p).filter p = l.filter p := by
    intro l p
    rw [List.filter_filter]
    exact List.filter_congr fun a _ => Bool.and_self _
  rw [indexRun_false_eq, indexRunGo]
  simp only []
  rw [hto]
  rw [if_neg (List.cons_ne_nil F [])]
  have hkept : docs0.filter (fun d => !(([F].map (·.relPath)).contains d.file)
        && (files.map (·.relPath)).contains d.file)
      = docs0.filter (fun d => !(d.file == F.relPath)) := by
    apply List.filter_congr
    intro d hd
    have hcur : (files.map (·.relPath)).contains d.file = true :=
      (contains_iff_mem _ _).mpr (hdocs d hd)
    rw [hcur, Bool.and_true, List.map_cons, List.map_nil,
      singleton_contains]
  by_cases h2 : ([F] : List CrawlFile).flatMap
      (fun f => chunkMarkdown f.content f.relPath) = []
  · rw [if_pos h2]
    simp only []
    rw [hkept]
    exact hfilterIdem docs0 _
  · rw [if_neg h2]
    split
    · rename_i hE
      have := hemb (([F].flatMap (fun f => chunkMarkdown f.content f.relPath)).map
        (fun c => jsSlice c.text 8000))
      rw [hE] at this
    · rename_i embeddings hE
      simp only []
      rw [List.filter_append, hkept, hfilterIdem docs0 _]
      have hnil : (([F].flatMap (fun f => chunkMarkdown f.content f.relPath)).enum.map
          (fun ci =>
            { id := ci.2.file ++ [':'] ++ (Nat.toDigits 10 ci.2.startLine).map id,
              file := ci.2.file, startLine := ci.2.startLine,
              endLine := ci.2.endLine, heading := ci.2.heading,
              text := ci.2.text, vector := embeddings.getD ci.1 [],
              indexedAt := now : Doc })).filter
            (fun d => !(d.file == F.relPath)) = [] := by
        rw [List.filter_eq_nil_iff]
        intro d hd
        rcases List.mem_map.mp hd with ⟨ci, hci, rfl⟩
        have hc2 : ci.2 ∈ ([F].flatMap (fun f => chunkMarkdown f.content f.relPath)) :=
          List.get?_mem (List.mem_enum_iff_get?.mp hci)
        rcases List.mem_flatMap.mp hc2 with ⟨f, hf, hcf⟩
        rw [List.mem_singleton] at hf
        have hfile : ci.2.file = F.relPath := by
          rw [← hf]
          exact chunkMarkdown_file _ _ _ hcf
        simp [hfile]
      rw [hnil, List.append_nil]

/-- Witness for C6 at a concrete two-file crawl where only `"a"` changed. -/
theorem incremental_frame_witness :
    (indexRun false [fileA, fileB] [(['b'], 3)] [docB] embedOne 7).index.filter
        (fun d => !(d.file == fileA.relPath))
      = [docB].filter (fun d => !(d.file == fileA.relPath)) :=
  incremental_frame [fileA, fileB] [(['b'], 3)] [docB] embedOne 7 fileA
    (by decide) (by decide) (fun _ => rfl)

/-! ## C7: idempotent re-index -/

theorem metaLookup_filter_mem (m : FileMeta) (cur : List Str) (k : Str)
    (hk : k ∈ cur) :
    metaLookup (m.filter (fun kv => cur.contains kv.1)) k = metaLookup m k := by
  induction m with
  | nil => rfl
  | cons a m ih =>
    rw [List.filter_cons]
    by_cases ha : cur.contains a.1 = true
    · rw [if_pos ha, metaLookup, metaLookup]
      by_cases hak : (a.1 == k) = true
      · simp only [hak, if_pos]
      · rw [Bool.not_eq_true] at hak
        rw [hak]
        exact ih
    · rw [if_neg ha, metaLookup]
      have hak : (a.1 == k) = false := by
        rw [beq_eq_false_iff_ne]
        intro he
        exact ha ((contains_iff_mem cur a.1).mpr (he ▸ hk))
      rw [hak, if_neg (by simp)]
      exact ih

theorem metaLookup_foldl_mem (l : List CrawlFile) :
    ∀ (m : FileMeta) (f : CrawlFile), (l.map (·.relPath)).Nodup → f ∈ l →
      metaLookup (l.foldl (fun m g => metaSet m g.relPath g.mtime) m) f.relPath
        = some f.mtime := by
  induction l with
  | nil =>
    intro m f _ hf
    simp at hf
  | cons g l ih =>
    intro m f hnd hf
    rw [List.foldl_cons]
    rw [List.map_cons, List.nodup_cons] at hnd
    rcases List.mem_cons.mp hf with rfl | hf
    · rw [metaLookup_foldl_not_mem l f.relPath _ ?hnot]
      case hnot =>
        intro x hx hxf
        exact hnd.1 (hxf ▸ List.mem_map.mpr ⟨x, hx, rfl⟩)
      exact metaLookup_metaSet_self m f.relPath f.mtime
    · exact ih (metaSet m g.relPath g.mtime) f hnd.2 hf

/-- A run that found no changed files leaves the disk untouched and reports
no changes. -/
theorem indexRun_noChange_out (files : List CrawlFile) (meta : FileMeta)
    (docs : List Doc) (embed : EmbedFn) (now : Nat)
    (h : ∀ f ∈ files, fileChanged false meta f = false) :
    indexRun false files meta docs embed now
      = { index := docs, meta := meta, status := .noChange,
          wroteIndex := false, wroteMeta := false, submitted := [],
          filesIndexed := 0 } := by
  rw [indexRun_false_eq, indexRunGo]
  simp only []
  rw [if_pos (List.filter_eq_nil_iff.mpr
    (fun f hf hc => by rw [h f hf] at hc; exact Bool.false_ne_true hc))]

/-- Inversion: a run that reported `noChange` found no changed files and
left store and tracker as they were. -/
theorem indexRun_noChange_inv (files : List CrawlFile) (meta0 : FileMeta)
    (docs0 : List Doc) (embed : EmbedFn) (now : Nat)
    (h : (indexRun false files meta0 docs0 embed now).status = .noChange) :
    files.filter (fileChanged false meta0) = []
    ∧ (indexRun false files meta0 docs0 embed now).index = docs0
    ∧ (indexRun false files meta0 docs0 embed now).meta = meta0 := by
  rw [indexRun_false_eq, indexRunGo] at h ⊢
  simp only [] at h ⊢
  by_cases h1 : files.filter (fileChanged false meta0) = []
  · rw [if_pos h1] at h ⊢
    exact ⟨h1, rfl, rfl⟩
  · rw [if_neg h1] at h ⊢
    by_cases h2 : (files.filter (fileChanged false meta0)).flatMap
        (fun f => chunkMarkdown f.content f.relPath) = []
    · rw [if_pos h2] at h
      simp at h
    · rw [if_neg h2] at h
      cases hE : embed (((files.filter (fileChanged false meta0)).flatMap
          (fun f => chunkMarkdown f.content f.relPath)).map
            (fun c => jsSlice c.text 8000)) with
      | none => rw [hE] at h; simp at h
      | some embeddings => rw [hE] at h; simp at h

/-- Inversion: the tracker an `ok` run writes. -/
theorem indexRun_ok_meta (files : List CrawlFile) (meta0 : FileMeta)
    (docs0 : List Doc) (embed : EmbedFn) (now : Nat)
    (hok : (indexRun false files meta0 docs0 embed now).status = .ok) :
    (indexRun false files meta0 docs0 embed now).meta
      = (files.filter (fileChanged false meta0)).foldl
          (fun m f => metaSet m f.relPath f.mtime)
          (meta0.filter (fun kv => (files.map (·.relPath)).contains kv.1)) := by
  rw [indexRun_false_eq, indexRunGo] at hok ⊢
  simp only [] at hok ⊢
  by_cases h1 : files.filter (fileChanged false meta0) = []
  · rw [if_pos h1] at hok
    simp at hok
  · rw [if_neg h1] at hok ⊢
    by_cases h2 : (files.filter (fileChanged false meta0)).flatMap
        (fun f => chunkMarkdown f.content f.relPath) = []
    · rw [if_pos h2] at hok
      simp at hok
    · rw [if_neg h2] at hok ⊢
      cases hE : embed (((files.filter (fileChanged false meta0)).flatMap
          (fun f => chunkMarkdown f.content f.relPath)).map
            (fun c => jsSlice c.text 8000)) with
      | none => rw [hE] at hok; simp at hok
      | some embeddings => rfl

/-- After an `ok` run over a crawl with distinct paths, no file compares as
changed against the tracker the run wrote. -/
theorem fileChanged_after_ok (files : List CrawlFile) (meta0 : FileMeta)
    (docs0 : List Doc) (embed : EmbedFn) (now : Nat)
    (hnodup : (files.map (·.relPath)).Nodup)
    (hok : (indexRun false files meta0 docs0 embed now).status = .ok) :
    ∀ f ∈ files,
      fileChanged false (indexRun false files meta0 docs0 embed now).meta f
        = false := by
  intro f hf
  rw [indexRun_ok_meta files meta0 docs0 embed now hok]
  have hndto : ((files.filter (fileChanged false meta0)).map (·.relPath)).Nodup :=
    ((List.filter_sublist files).map (·.relPath)).nodup hnodup
  by_cases hfc : fileChanged false meta0 f = true
  · have hft : f ∈ files.filter (fileChanged false meta0) :=
      List.mem_filter.mpr ⟨hf, hfc⟩
    rw [fileChanged, metaLookup_foldl_mem _ _ f hndto hft]
    simp
  · rw [Bool.not_eq_true] at hfc
    have hnotin : ∀ g ∈ files.filter (fileChanged false meta0),
        ¬ g.relPath = f.relPath := by
      intro g hg hgf
      have hgfiles := (List.mem_filter.mp hg).1
      have : g = f := List.inj_on_of_nodup_map hnodup hgfiles hf hgf
      rw [this] at hg
      have := (List.mem_filter.mp hg).2
      rw [hfc] at this
      exact Bool.false_ne_true this
    rw [fileChanged, metaLookup_foldl_not_mem _ _ _ hnotin,
      metaLookup_filter_mem _ _ _ (List.mem_map.mpr ⟨f, hf, rfl⟩)]
    rw [fileChanged] at hfc
    exact hfc

/-- C7 (amended): re-running the indexer with no file changes in between,
after a first run that either reported no changes or completed with status
`ok` (i.e. wrote the tracker), is a no-op: the second run reports zero
files changed, leaves the chunk set identical, submits nothing for
embedding, and rewrites neither the store nor the tracker file.  Without
the first-run condition the claim fails (see the counterexample): a run
whose changed files produced no chunks does not update the tracker, so the
next run re-reports those files as changed and rewrites the store. -/
theorem reindex_idempotent (files : List CrawlFile) (meta0 : FileMeta)
    (docs0 : List Doc) (embed : EmbedFn) (t1 t2 : Nat)
    (hnodup : (files.map (·.relPath)).Nodup)
    (hstat : (indexRun false files meta0 docs0 embed t1).status = .ok
      ∨ (indexRun false files meta0 docs0 embed t1).status = .noChange) :
    indexRun false files (indexRun false files meta0 docs0 embed t1).meta
        (indexRun false files meta0 docs0 embed t1).index embed t2
      = { index := (indexRun false files meta0 docs0 embed t1).index,
          meta := (indexRun false files meta0 docs0 embed t1).meta,
          status := .noChange, wroteIndex := false, wroteMeta := false,
          submitted := [], filesIndexed := 0 } := by
  rcases hstat with hok | hnc
  · exact indexRun_noChange_out _ _ _ _ _
      (fileChanged_after_ok files meta0 docs0 embed t1 hnodup hok)
  · have inv := indexRun_noChange_inv files meta0 docs0 embed t1 hnc
    rw [inv.2.2, inv.2.1]
    exact indexRun_noChange_out _ _ _ _ _
      (fun f hf => by
        have h := List.filter_eq_nil_iff.mp inv.1 f hf
        rwa [Bool.not_eq_true] at h)

/-- Witness for C7 (amended) at a concrete one-file crawl. -/
theorem reindex_idempotent_witness :
    indexRun false [fileA] (indexRun false [fileA] [] [] embedOne 0).meta
        (indexRun false [fileA] [] [] embedOne 0).index embedOne 5
      = { index := (indexRun false [fileA] [] [] embedOne 0).index,
          meta := (indexRun false [fileA] [] [] embedOne 0).meta,
          status := .noChange, wroteIndex := false, wroteMeta := false,
          submitted := [], filesIndexed := 0 } :=
  reindex_idempotent [fileA] [] [] embedOne 0 5 (by decide)
    (Or.inl (by decide))

/-- C7 (counterexample): a file whose content is below the 20-character
chunk floor is marked changed on every run — the first run takes the
no-content path and never writes the tracker — so the second run, with no
file changes in between, does not report zero files changed and rewrites
the store file. -/
theorem reindex_idempotent_counterexample :
    (indexRun false [tinyFile]
        (indexRun false [tinyFile] [] [] embedOne 0).meta
        (indexRun false [tinyFile] [] [] embedOne 0).index embedOne 9).status
      ≠ .noChange
    ∧ (indexRun false [tinyFile]
        (indexRun false [tinyFile] [] [] embedOne 0).meta
        (indexRun false [tinyFile] [] [] embedOne 0).index embedOne 9).wroteIndex
      = true := by
  refine ⟨by decide, by decide⟩

/-! ## C3: a failed embedding call persists nothing -/

theorem indexRunGo_embedFail (full : Bool) (files : List CrawlFile)
    (fm : FileMeta) (ed : List Doc) (meta0 : FileMeta) (docs0 : List Doc)
    (embed : EmbedFn) (now : Nat)
    (h : (indexRunGo full files fm ed meta0 docs0 embed now).status
      = .embedFail) :
    (indexRunGo full files fm ed meta0 docs0 embed now).index = docs0
    ∧ (indexRunGo full files fm ed meta0 docs0 embed now).meta = meta0
    ∧ (indexRunGo full files fm ed meta0 docs0 embed now).wroteIndex
      = false := by
  rw [indexRunGo] at h ⊢
  simp only [] at h ⊢
  by_cases h1 : files.filter (fileChanged full fm) = []
  · rw [if_pos h1] at h
    simp at h
  · rw [if_neg h1] at h ⊢
    by_cases h2 : (files.filter (fileChanged full fm)).flatMap
        (fun f => chunkMarkdown f.content f.relPath) = []
    · rw [if_pos h2] at h
      simp at h
    · rw [if_neg h2] at h ⊢
      cases hE : embed (((files.filter (fileChanged full fm)).flatMap
          (fun f => chunkMarkdown f.content f.relPath)).map
            (fun c => jsSlice c.text 8000)) with
      | none => exact ⟨rfl, rfl, rfl⟩
      | some embeddings => rw [hE] at h; simp at h

/-- C3: in every pipeline — workspace indexing, session ingestion, and
ad-hoc ingestion — a run in which the embedding call throws ends with the
on-disk chunk store exactly as it was before the run (store writes happen
only after all embedding succeeds, so prior runs' chunks are intact and
none of this run's chunks are persisted). -/
theorem embed_failure_no_persist :
    (∀ (full : Bool) (files : List CrawlFile) (meta0 : FileMeta)
        (docs0 : List Doc) (embed : EmbedFn) (now : Nat),
      (indexRun full files meta0 docs0 embed now).status = .embedFail →
      (indexRun full files meta0 docs0 embed now).index = docs0
        ∧ (indexRun full files meta0 docs0 embed now).wroteIndex = false)
    ∧ (∀ (st0 : SessState) (sfs : List SessFile) (docs0 : List Doc)
        (embed : EmbedFn) (now : Nat),
      (sessionsRun st0 sfs docs0 embed now).status = .embedFail →
      (sessionsRun st0 sfs docs0 embed now).index = docs0
        ∧ (sessionsRun st0 sfs docs0 embed now).wroteIndex = false)
    ∧ (∀ (source text : Str) (docs0 : List Doc) (embed : EmbedFn) (now : Nat),
      (ingestRun source text docs0 embed now).status = .embedFail →
      (ingestRun source text docs0 embed now).index = docs0
        ∧ (ingestRun source text docs0 embed now).wroteIndex = false) := by
  refine ⟨?_, ?_, ?_⟩
  · intro full files meta0 docs0 embed now h
    have h2 := indexRunGo_embedFail full files (if full then [] else meta0)
      (if full then [] else docs0) meta0 docs0 embed now h
    exact ⟨h2.1, h2.2.2⟩
  · intro st0 sfs docs0 embed now h
    rw [sessionsRun] at h ⊢
    simp only [] at h ⊢
    by_cases h1 : now - st0.lastRun < 50000
    · rw [if_pos h1] at h
      simp at h
    · rw [if_neg h1] at h ⊢
      by_cases h2 : sfs = []
      · rw [if_pos h2] at h
        simp at h
      · rw [if_neg h2] at h ⊢
        by_cases h3 : ((sfs.foldl sessLoopStep (st0.files, [])).2.map (·.1)) = []
        · rw [if_pos h3] at h
          simp at h
        · rw [if_neg h3] at h ⊢
          cases hE : embed (((sfs.foldl sessLoopStep (st0.files, [])).2.map
              (·.1)).map (fun t => jsSlice t 8000)) with
          | none => exact ⟨rfl, rfl⟩
          | some embeddings => rw [hE] at h; simp at h
  · intro source text docs0 embed now h
    rw [ingestRun] at h ⊢
    simp only [] at h ⊢
    by_cases h1 : chunkMarkdown text (ingestKey source) = []
    · rw [if_pos h1] at h
      simp at h
    · rw [if_neg h1] at h ⊢
      cases hE : embed ((chunkMarkdown text (ingestKey source)).map
          (fun c => jsSlice c.text 8000)) with
      | none => exact ⟨rfl, rfl⟩
      | some embeddings => rw [hE] at h; simp at h

/-- Witness for C3: all three pipelines run against an embedding capability
whose call throws, each with work to embed; each leaves the store it
started with. -/
theorem embed_failure_no_persist_witness :
    ((indexRun false [fileA] [] [docB] embedNone 0).index = [docB]
      ∧ (indexRun false [fileA] [] [docB] embedNone 0).wroteIndex = false)
    ∧ ((sessionsRun ⟨[], 0⟩ [sfShrink] [docB] embedNone 60000).index = [docB]
      ∧ (sessionsRun ⟨[], 0⟩ [sfShrink] [docB] embedNone 60000).wroteIndex
        = false)
    ∧ ((ingestRun ['s'] smallText [docB] embedNone 0).index = [docB]
      ∧ (ingestRun ['s'] smallText [docB] embedNone 0).wroteIndex = false) :=
  ⟨embed_failure_no_persist.1 false [fileA] [] [docB] embedNone 0 (by decide),
   embed_failure_no_persist.2.1 ⟨[], 0⟩ [sfShrink] [docB] embedNone 60000
     (by decide),
   embed_failure_no_persist.2.2 ['s'] smallText [docB] embedNone 0 (by decide)⟩

/-! ## C9: truncation before submission -/

theorem strLen_jsSlice_le (s : Str) (n : Nat) : strLen (jsSlice s n) ≤ n := by
  rw [strLen_eq_length, jsSlice]
  exact List.length_take_le n s

/-- C9: in each of the three embedding pipelines — workspace indexing,
session ingestion, and ad-hoc ingestion — every text submitted to the
embedding client has been truncated to at most 8000 characters. -/
theorem embed_truncation :
    (∀ (full : Bool) (files : List CrawlFile) (meta0 : FileMeta)
        (docs0 : List Doc) (embed : EmbedFn) (now : Nat),
      ∀ t ∈ (indexRun full files meta0 docs0 embed now).submitted,
        strLen t ≤ 8000)
    ∧ (∀ (st0 : SessState) (sfs : List SessFile) (docs0 : List Doc)
        (embed : EmbedFn) (now : Nat),
      ∀ t ∈ (sessionsRun st0 sfs docs0 embed now).submitted, strLen t ≤ 8000)
    ∧ (∀ (source text : Str) (docs0 : List Doc) (embed : EmbedFn) (now : Nat),
      ∀ t ∈ (ingestRun source text docs0 embed now).submitted,
        strLen t ≤ 8000) := by
  have hmap : ∀ (l : List Str) (t : Str),
      t ∈ l.map (fun u => jsSlice u 8000) → strLen t ≤ 8000 := by
    intro l t ht
    rcases List.mem_map.mp ht with ⟨u, _, rfl⟩
    exact strLen_jsSlice_le u 8000
  have hmapc : ∀ (l : List Chunk) (t : Str),
      t ∈ l.map (fun c => jsSlice c.text 8000) → strLen t ≤ 8000 := by
    intro l t ht
    rcases List.mem_map.mp ht with ⟨c, _, rfl⟩
    exact strLen_jsSlice_le c.text 8000
  refine ⟨?_, ?_, ?_⟩
  · intro full files meta0 docs0 embed now t ht
    rw [indexRun, indexRunGo] at ht
    simp only [] at ht
    by_cases h1 : files.filter (fileChanged full (if full then [] else meta0))
        = []
    · rw [if_pos h1] at ht
      simp at ht
    · rw [if_neg h1] at ht
      by_cases h2 : (files.filter (fileChanged full
          (if full then [] else meta0))).flatMap
          (fun f => chunkMarkdown f.content f.relPath) = []
      · rw [if_pos h2] at ht
        simp at ht
      · rw [if_neg h2] at ht
        cases hE : embed (((files.filter (fileChanged full
            (if full then [] else meta0))).flatMap
            (fun f => chunkMarkdown f.content f.relPath)).map
              (fun c => jsSlice c.text 8000)) with
        | none =>
          rw [hE] at ht
          exact hmapc _ t ht
        | some embeddings =>
          rw [hE] at ht
          exact hmapc _ t ht
  · intro st0 sfs docs0 embed now t ht
    rw [sessionsRun] at ht
    simp only [] at ht
    by_cases h1 : now - st0.lastRun < 50000
    · rw [if_pos h1] at ht
      simp at ht
    · rw [if_neg h1] at ht
      by_cases h2 : sfs = []
      · rw [if_pos h2] at ht
        simp at ht
      · rw [if_neg h2] at ht
        by_cases h3 : ((sfs.foldl sessLoopStep (st0.files, [])).2.map (·.1)) = []
        · rw [if_pos h3] at ht
          simp at ht
        · rw [if_neg h3] at ht
          cases hE : embed (((sfs.foldl sessLoopStep (st0.files, [])).2.map
              (·.1)).map (fun u => jsSlice u 8000)) with
          | none =>
            rw [hE] at ht
            exact hmap _ t ht
          | some embeddings =>
            rw [hE] at ht
            exact hmap _ t ht
  · intro source text docs0 embed now t ht
    rw [ingestRun] at ht
    simp only [] at ht
    by_cases h1 : chunkMarkdown text (ingestKey source) = []
    · rw [if_pos h1] at ht
      simp at ht
    · rw [if_neg h1] at ht
      cases hE : embed ((chunkMarkdown text (ingestKey source)).map
          (fun c => jsSlice c.text 8000)) with
      | none =>
        rw [hE] at ht
        exact hmapc _ t ht
      | some embeddings =>
        rw [hE] at ht
        exact hmapc _ t ht

/-- Witness for C9: a concrete indexing run submits exactly the truncated
chunk text of the one changed file, and it is within the cap. -/
theorem embed_truncation_witness :
    strLen (jsSlice smallText 8000) ≤ 8000 :=
  embed_truncation.1 false [fileA] [] [] embedOne 0 (jsSlice smallText 8000)
    (by decide)

/-! ## C2: session offsets on growing logs -/

/-- C2 (amended): for a session log that only grows between two runs (the
new JSONL file is the old lines followed by appended lines), and whose
stored offset matches the earlier run's message count, the tracker offset
is non-decreasing across the later run, and that run selects exactly the
messages decoded from the appended lines (filtered by the skip rules) — no
message below the stored offset is selected again. The unconditional
monotonicity of the original claim fails when a session log shrinks: the
offset is overwritten with the new, smaller message count. -/
theorem session_offset_monotone (fileSt : Option FileSt) (sf : SessFile)
    (lines0 ext : List LogLine)
    (hgrow : sf.lines = lines0 ++ ext)
    (hoff : (fileSt.map (·.offset)).getD 0 = (parseJSONL lines0).length) :
    (fileSt.map (·.offset)).getD 0
      ≤ ((stepFileState fileSt sf).map (·.offset)).getD 0
    ∧ selectNew ((fileSt.map (·.offset)).getD 0) (parseJSONL sf.lines)
      = (parseJSONL ext).filter (fun m => !shouldSkipMessage m) := by
  constructor
  · rw [stepFileState]
    by_cases hm : sf.mtime ≤ (fileSt.map (·.mtime)).getD 0
    · rw [if_pos hm]
    · rw [if_neg hm]
      show (fileSt.map (·.offset)).getD 0 ≤ (parseJSONL sf.lines).length
      rw [hoff, hgrow]
      simp only [parseJSONL]
      rw [List.filterMap_append, List.length_append]
      exact Nat.le_add_right _ _
  · rw [selectNew, hoff, hgrow]
    simp only [parseJSONL]
    rw [List.filterMap_append, List.drop_left]

/-- Witness for C2: a session file whose log grew from one decodable user
message to two; the run keeps the offset at least 1 and selects exactly the
appended message. -/
theorem session_offset_monotone_witness :
    ((some (⟨1, 1⟩ : FileSt)).map (·.offset)).getD 0
      ≤ ((stepFileState (some ⟨1, 1⟩) sfGrown).map (·.offset)).getD 0
    ∧ selectNew (((some (⟨1, 1⟩ : FileSt)).map (·.offset)).getD 0)
        (parseJSONL sfGrown.lines)
      = (parseJSONL [some msgBig2]).filter (fun m => !shouldSkipMessage m) :=
  session_offset_monotone (some ⟨1, 1⟩) sfGrown [some msgBig] [some msgBig2]
    rfl rfl

/-- Counterexample to C2 as stated: a session file whose log shrank from 5
tracked messages to 1 decodable message while its mtime advanced; the run
overwrites the stored offset 5 with the new message count 1, so the offset
strictly decreases across consecutive runs. -/
theorem session_offset_counterexample :
    ((stepFileState (some ⟨1, 5⟩) sfShrink).map (·.offset)).getD 0
      < ((some (⟨1, 5⟩ : FileSt)).map (·.offset)).getD 0 := by decide

/-! ## C4: corrupt versus absent state files -/

/-- C4 (amended): only the session-ingest state loader recovers from
malformed JSON by falling back to the default state, exactly as for an
absent file; the chunk-store loader and the file-modification tracker
loader have no such guard — an absent file yields the empty store or empty
tracker, but malformed JSON raises a parse error that aborts the run. -/
theorem corrupt_state_recovery :
    loadStateM .malformed = .ok defaultSessState
    ∧ loadStateM .absent = .ok defaultSessState
    ∧ loadIndexM .malformed = .error .parseError
    ∧ loadIndexM .absent = .ok []
    ∧ loadFileMetaM .malformed = .error .parseError
    ∧ loadFileMetaM .absent = .ok [] :=
  ⟨rfl, rfl, rfl, rfl, rfl, rfl⟩

/-- Counterexample to C4 as stated: a corrupt chunk store or tracker file
is not treated like an absent one — it produces a parse error instead of
the empty fallback. -/
theorem corrupt_state_counterexample :
    loadIndexM .malformed = .error .parseError
    ∧ loadFileMetaM .malformed = .error .parseError
    ∧ loadIndexM .malformed ≠ loadIndexM .absent
    ∧ loadFileMetaM .malformed ≠ loadFileMetaM .absent := by
  refine ⟨rfl, rfl, ?_, ?_⟩ <;> intro h <;> cases h

/-! ## C8: ranking is a stable descending sort, filtered before truncation -/

theorem ratLe_eq_true_iff (a b : Rat) : ratLe a b = true ↔ a ≤ b := by
  simp [ratLe]

theorem insertDesc_perm (x : SRes Rat) (l : List (SRes Rat)) :
    (insertDesc ratLe x l).Perm (x :: l) := by
  induction l with
  | nil => exact List.Perm.refl _
  | cons y ys ih =>
    rw [insertDesc]
    by_cases h : ratLe x.score y.score = true
    · rw [if_pos h]
      exact (ih.cons y).trans (List.Perm.swap x y ys)
    · rw [if_neg h]

theorem insertDesc_sorted (x : SRes Rat) (l : List (SRes Rat))
    (hl : l.Pairwise (fun a b => b.score ≤ a.score)) :
    (insertDesc ratLe x l).Pairwise (fun a b => b.score ≤ a.score) := by
  induction l with
  | nil => simp [insertDesc]
  | cons y ys ih =>
    rw [List.pairwise_cons] at hl
    obtain ⟨hy, hys⟩ := hl
    rw [insertDesc]
    by_cases h : ratLe x.score y.score = true
    · rw [if_pos h]
      rw [List.pairwise_cons]
      refine ⟨?_, ih hys⟩
      intro z hz
      have hz2 := (insertDesc_perm x ys).mem_iff.mp hz
      rcases List.mem_cons.mp hz2 with rfl | hz3
      · exact (ratLe_eq_true_iff _ _).mp h
      · exact hy z hz3
    · rw [if_neg h]
      have hyx : y.score ≤ x.score :=
        le_of_not_le (fun hc => h ((ratLe_eq_true_iff _ _).mpr hc))
      rw [List.pairwise_cons]
      refine ⟨?_, List.Pairwise.cons hy hys⟩
      intro z hz
      rcases List.mem_cons.mp hz with rfl | hz3
      · exact hyx
      · exact le_trans (hy z hz3) hyx

theorem insertDesc_front (x : SRes Rat) (l : List (SRes Rat))
    (h : ∀ z ∈ l, z.score < x.score) :
    insertDesc ratLe x l = x :: l := by
  cases l with
  | nil => rfl
  | cons y ys =>
    have hxy : ¬ (ratLe x.score y.score = true) := fun hc =>
      absurd ((ratLe_eq_true_iff _ _).mp hc)
        (not_le_of_lt (h y (List.mem_cons_self y ys)))
    rw [insertDesc, if_neg hxy]

theorem insertDesc_back (x : SRes Rat) (l : List (SRes Rat))
    (h : ∀ z ∈ l, x.score ≤ z.score) :
    insertDesc ratLe x l = l ++ [x] := by
  induction l with
  | nil => rfl
  | cons y ys ih =>
    have hy : ratLe x.score y.score = true :=
      (ratLe_eq_true_iff _ _).mpr (h y (List.mem_cons_self y ys))
    rw [insertDesc, if_pos hy, ih (fun z hz => h z (List.mem_cons_of_mem y hz))]
    rfl

theorem sortDesc_concat (x : SRes Rat) (l : List (SRes Rat)) :
    sortDesc ratLe (l ++ [x]) = insertDesc ratLe x (sortDesc ratLe l) := by
  rw [sortDesc, sortDesc, List.foldl_append]
  rfl

theorem sortDesc_sorted (l : List (SRes Rat)) :
    (sortDesc ratLe l).Pairwise (fun a b => b.score ≤ a.score) := by
  induction l using List.reverseRecOn with
  | nil => simp [sortDesc]
  | append_singleton l x ih =>
    rw [sortDesc_concat]
    exact insertDesc_sorted x _ ih

theorem insertDesc_filter (p : SRes Rat → Bool) (x : SRes Rat)
    (l : List (SRes Rat)) (hl : l.Pairwise (fun a b => b.score ≤ a.score)) :
    (insertDesc ratLe x l).filter p
      = if p x = true then insertDesc ratLe x (l.filter p)
        else l.filter p := by
  induction l with
  | nil =>
    by_cases hpx : p x = true
    · simp [insertDesc, List.filter_cons, hpx]
    · simp [insertDesc, List.filter_cons, hpx]
  | cons y ys ih =>
    rw [List.pairwise_cons] at hl
    obtain ⟨hy, hys⟩ := hl
    by_cases hxy : ratLe x.score y.score = true
    · by_cases hpy : p y = true
      · by_cases hpx : p x = true
        · simp [insertDesc, List.filter_cons, hxy, hpy, hpx, ih hys]
        · simp [insertDesc, List.filter_cons, hxy, hpy, hpx, ih hys]
      · by_cases hpx : p x = true
        · simp [insertDesc, List.filter_cons, hxy, hpy, hpx, ih hys]
        · simp [insertDesc, List.filter_cons, hxy, hpy, hpx, ih hys]
    · have hyx : y.score < x.score :=
        lt_of_not_le (fun hc => hxy ((ratLe_eq_true_iff _ _).mpr hc))
      by_cases hpx : p x = true
      · have hfront : insertDesc ratLe x ((y :: ys).filter p)
            = x :: (y :: ys).filter p := by
          apply insertDesc_front
          intro z hz
          rcases List.mem_cons.mp (List.mem_of_mem_filter hz) with rfl | hz3
          · exact hyx
          · exact lt_of_le_of_lt (hy z hz3) hyx
        rw [insertDesc, if_neg hxy, List.filter_cons, if_pos hpx, if_pos hpx,
          hfront]
      · simp [insertDesc, List.filter_cons, hxy, hpx]

theorem sortDesc_filter (p : SRes Rat → Bool) (l : List (SRes Rat)) :
    (sortDesc ratLe l).filter p = sortDesc ratLe (l.filter p) := by
  induction l using List.reverseRecOn with
  | nil => rfl
  | append_singleton l x ih =>
    rw [sortDesc_concat, insertDesc_filter p x _ (sortDesc_sorted l),
      List.filter_append]
    by_cases hpx : p x = true
    · rw [if_pos hpx, ih,
        show List.filter p [x] = [x] from by
          rw [List.filter_cons, if_pos hpx]; rfl,
        sortDesc_concat]
    · rw [if_neg hpx, ih,
        show List.filter p [x] = ([] : List (SRes Rat)) from by
          rw [List.filter_cons, if_neg hpx]; rfl,
        List.append_nil]

theorem sortDesc_const (s : Rat) (l : List (SRes Rat))
    (h : ∀ r ∈ l, r.score = s) : sortDesc ratLe l = l := by
  induction l using List.reverseRecOn with
  | nil => rfl
  | append_singleton l x ih =>
    rw [sortDesc_concat, ih (fun r hr => h r (List.mem_append_left _ hr))]
    apply insertDesc_back
    intro z hz
    have hz2 := h z (List.mem_append_left [x] hz)
    have hx2 := h x (List.mem_append_right l (List.mem_singleton_self x))
    rw [hx2, hz2]

theorem sortDesc_stable (l : List (SRes Rat)) (s : Rat) :
    (sortDesc ratLe l).filter (fun r => r.score == s)
      = l.filter (fun r => r.score == s) := by
  rw [sortDesc_filter]
  apply sortDesc_const s
  intro r hr
  exact beq_iff_eq.mp (List.mem_filter.mp hr).2

/-- C8: the ranking stage of search is a stable descending sort with the
minScore filter applied before truncation: the result list is sorted
descending by score; every returned entry meets minScore; the result is the
first `limit` entries of the sorted, minScore-filtered list (not a filter of
the first `limit`); and among equal-score entries the sort preserves the
original store order. -/
theorem search_ranking (scored : List (SRes Rat)) (minScore : Rat)
    (limit : Nat) :
    (rankResults scored minScore limit).Pairwise (fun a b => b.score ≤ a.score)
    ∧ (∀ r ∈ rankResults scored minScore limit, minScore ≤ r.score)
    ∧ rankResults scored minScore limit
      = (sortDesc ratLe (scored.filter (fun r => minScore ≤ r.score))).take
          limit
    ∧ ∀ s : Rat, (sortDesc ratLe scored).filter (fun r => r.score == s)
        = scored.filter (fun r => r.score == s) := by
  refine ⟨?_, ?_, ?_, fun s => sortDesc_stable scored s⟩
  · exact List.Pairwise.sublist
      ((List.take_sublist _ _).trans (List.filter_sublist _))
      (sortDesc_sorted scored)
  · intro r hr
    exact of_decide_eq_true (List.mem_filter.mp (List.mem_of_mem_take hr)).2
  · rw [rankResults, sortDesc_filter]

/-- Witness for C8: on a concrete two-row store the high-scoring row is
returned and its score meets the minimum. -/
theorem search_ranking_witness : (1 : Rat) ≤ sHi.score :=
  (search_ranking [sLo, sHi] 1 10).2.1 sHi (by decide)

/-! ## C10: zero vectors make the score NaN, and the filter drops NaN -/

theorem jsIdx_replicate_zero (n i : Nat) (h : i < n) :
    jsIdx (List.replicate n (0:Rat)) i = some 0 := by
  have hg : (List.replicate n (0:Rat)).get? i = some 0 := by
    rw [List.get?_eq_getElem?]
    simp [List.getElem?_replicate, h]
  rw [jsIdx, hg]

theorem jsIdx_replicate_cases (m i : Nat) :
    jsIdx (List.replicate m (0:Rat)) i = some 0
    ∨ jsIdx (List.replicate m (0:Rat)) i = none := by
  rw [jsIdx]
  cases hg : (List.replicate m (0:Rat)).get? i with
  | none => right; rfl
  | some q =>
    left
    rw [List.eq_of_mem_replicate (List.get?_mem hg)]

theorem jsIdx_lt (a : Vec) (i : Nat) (h : i < a.length) :
    ∃ q, jsIdx a i = some q := by
  rw [jsIdx]
  cases hq : a.get? i with
  | some q => exact ⟨q, rfl⟩
  | none => exact absurd (List.get?_eq_none.mp hq) (not_le.mpr h)

theorem jsDiv_denom_degenerate (d x : JsNum) (hx : x = some 0 ∨ x = none) :
    jsDiv d x = none := by
  cases hx with
  | inl h =>
    rw [h]
    cases d with
    | none => rfl
    | some a =>
      show (if (0:Rat) = 0 then none else some (a / 0)) = none
      rw [if_pos rfl]
  | inr h =>
    rw [h]
    cases d <;> rfl

theorem jsSqrt_zero (sqrtFn : Rat → Rat) (hsq : sqrtFn 0 = 0) :
    jsSqrt sqrtFn (some 0) = some 0 := by
  show (if (0:Rat) < 0 then none else some (sqrtFn 0)) = some 0
  rw [if_neg (lt_irrefl (0:Rat)), hsq]

theorem denom_nan_left (sqrtFn : Rat → Rat) (hsq : sqrtFn 0 = 0)
    (nb d : JsNum) :
    jsDiv d (jsMul (jsSqrt sqrtFn (some 0)) (jsSqrt sqrtFn nb)) = none := by
  rw [jsSqrt_zero sqrtFn hsq]
  cases hb : jsSqrt sqrtFn nb with
  | none => cases d <;> rfl
  | some r =>
    have hm : jsMul (some (0:Rat)) (some r) = some 0 := by
      show some ((0:Rat) * r) = some 0
      rw [zero_mul]
    rw [hm]
    exact jsDiv_denom_degenerate d _ (Or.inl rfl)

theorem denom_nan_right (sqrtFn : Rat → Rat) (hsq : sqrtFn 0 = 0)
    (q : Rat) (hq : 0 ≤ q) (nb d : JsNum)
    (hnb : nb = some 0 ∨ nb = none) :
    jsDiv d (jsMul (jsSqrt sqrtFn (some q)) (jsSqrt sqrtFn nb)) = none := by
  have hsq2 : jsSqrt sqrtFn (some q) = some (sqrtFn q) := by
    show (if q < 0 then none else some (sqrtFn q)) = some (sqrtFn q)
    rw [if_neg (not_lt_of_le hq)]
  rw [hsq2]
  cases hnb with
  | inl h =>
    rw [h, jsSqrt_zero sqrtFn hsq]
    have hm : jsMul (some (sqrtFn q)) (some (0:Rat)) = some 0 := by
      show some (sqrtFn q * 0) = some 0
      rw [mul_zero]
    rw [hm]
    exact jsDiv_denom_degenerate d _ (Or.inl rfl)
  | inr h =>
    rw [h]
    cases d <;> rfl

theorem cosAcc_zero_left_inv (n : Nat) (b : Vec) (l : List Nat)
    (hl : ∀ i ∈ l, i < n) :
    ∀ init : JsNum × JsNum × JsNum,
      (init.1 = some 0 ∨ init.1 = none) → init.2.1 = some 0 →
      ((l.foldl (cosStep (List.replicate n (0:Rat)) b) init).1 = some 0
          ∨ (l.foldl (cosStep (List.replicate n (0:Rat)) b) init).1 = none)
        ∧ (l.foldl (cosStep (List.replicate n (0:Rat)) b) init).2.1
          = some 0 := by
  induction l with
  | nil => exact fun init h1 h2 => ⟨h1, h2⟩
  | cons i rest ih =>
    intro init h1 h2
    rw [List.foldl_cons]
    have hi : i < n := hl i (List.mem_cons_self i rest)
    apply ih (fun j hj => hl j (List.mem_cons_of_mem i hj))
    · rw [cosStep]
      simp only []
      rw [jsIdx_replicate_zero n i hi]
      cases h1 with
      | inl h1 =>
        rw [h1]
        cases hb : jsIdx b i with
        | some v =>
          left
          simp [jsMul, jsAdd]
        | none =>
          right
          rfl
      | inr h1 =>
        right
        rw [h1]
        rfl
    · rw [cosStep]
      simp only []
      rw [h2, jsIdx_replicate_zero n i hi]
      simp [jsMul, jsAdd]

theorem cosAcc_zero_right_inv (a : Vec) (m : Nat) (l : List Nat)
    (hl : ∀ i ∈ l, i < a.length) :
    ∀ init : JsNum × JsNum × JsNum,
      (∃ q, 0 ≤ q ∧ init.2.1 = some q) →
      (init.2.2 = some 0 ∨ init.2.2 = none) →
      (∃ q, 0 ≤ q
          ∧ (l.foldl (cosStep a (List.replicate m (0:Rat))) init).2.1 = some q)
        ∧ ((l.foldl (cosStep a (List.replicate m (0:Rat))) init).2.2 = some 0
          ∨ (l.foldl (cosStep a (List.replicate m (0:Rat))) init).2.2
            = none) := by
  induction l with
  | nil => exact fun init h1 h2 => ⟨h1, h2⟩
  | cons i rest ih =>
    intro init h1 h2
    rw [List.foldl_cons]
    have hi : i < a.length := hl i (List.mem_cons_self i rest)
    apply ih (fun j hj => hl j (List.mem_cons_of_mem i hj))
    · obtain ⟨q, hq0, hq⟩ := h1
      obtain ⟨ai, hai⟩ := jsIdx_lt a i hi
      rw [cosStep]
      simp only []
      rw [hq, hai]
      exact ⟨q + ai * ai, add_nonneg hq0 (mul_self_nonneg ai), rfl⟩
    · rw [cosStep]
      simp only []
      cases h2 with
      | inl h2 =>
        rw [h2]
        cases jsIdx_replicate_cases m i with
        | inl hm =>
          rw [hm]
          left
          simp [jsMul, jsAdd]
        | inr hm =>
          rw [hm]
          right
          rfl
      | inr h2 =>
        rw [h2]
        right
        rfl

/-- C10: the cosine-similarity computation has no zero guard, so an
all-zero query or stored vector makes the denominator zero and the score a
non-number; nevertheless search never returns a non-number score, since
the result filter keeps only entries whose score is a number at least
minScore. -/
theorem cosine_nan_zero_guard (sqrtFn : Rat → Rat) (hsq : sqrtFn 0 = 0) :
    (∀ (n : Nat) (b : Vec),
      cosineSimilarityJs sqrtFn (List.replicate n 0) b = none)
    ∧ (∀ (a : Vec) (m : Nat),
      cosineSimilarityJs sqrtFn a (List.replicate m 0) = none)
    ∧ (∀ (queryVec : Vec) (docs : List Doc) (minScore : Rat) (limit : Nat),
        ∀ r ∈ searchRunJs sqrtFn queryVec docs minScore limit,
          ∃ q, r.score = some q ∧ minScore ≤ q) := by
  refine ⟨?_, ?_, ?_⟩
  · intro n b
    rw [cosineSimilarityJs]
    have h := cosAcc_zero_left_inv n b
      (List.range (List.replicate n (0:Rat)).length)
      (fun i hi => by simpa using List.mem_range.mp hi)
      (some 0, some 0, some 0) (Or.inl rfl) rfl
    rw [cosAcc, h.2]
    exact denom_nan_left sqrtFn hsq _ _
  · intro a m
    rw [cosineSimilarityJs]
    have h := cosAcc_zero_right_inv a m (List.range a.length)
      (fun i hi => List.mem_range.mp hi)
      (some 0, some 0, some 0) ⟨0, le_refl 0, rfl⟩ (Or.inl rfl)
    obtain ⟨⟨q, hq0, hq⟩, hnb⟩ := h
    rw [cosAcc, hq]
    exact denom_nan_right sqrtFn hsq q hq0 _ _ hnb
  · intro queryVec docs minScore limit r hr
    rw [searchRunJs] at hr
    have hr3 := (List.mem_filter.mp (List.mem_of_mem_take hr)).2
    cases hs : r.score with
    | none =>
      rw [hs] at hr3
      simp [jsGeB] at hr3
    | some q =>
      refine ⟨q, rfl, ?_⟩
      rw [hs] at hr3
      exact of_decide_eq_true hr3

/-- Witness for C10: with the identity as the abstract square root (which
fixes 0), a concrete all-zero query against a nonzero vector — and the
mirrored case — both score a non-number. -/
theorem cosine_nan_witness :
    cosineSimilarityJs (fun q => q) (List.replicate 2 (0:Rat)) [1, 2] = none
    ∧ cosineSimilarityJs (fun q => q) [1, 2] (List.replicate 2 (0:Rat))
      = none :=
  ⟨(cosine_nan_zero_guard (fun q => q) rfl).1 2 [1, 2],
   (cosine_nan_zero_guard (fun q => q) rfl).2.1 [1, 2] 2⟩

end VecMem
